import Mathlib

/-
Verification development for the sprite-animation backend:
frame management, filename normalization, rename application,
sheet compositing with atlas emission, GIF assembly, and the
multi-stage poses pipeline.

The embedding models raster images as opaque records carrying their
pixel dimensions and an identity tag, and the filesystem as an
association list from path strings to images. All path manipulation
mirrors the Python code (pathlib parent / name / join with forward
slashes, backslash normalization) on lists of characters.
-/

set_option maxRecDepth 4000
set_option linter.unusedVariables false

namespace Pixo

/-- Raster image model: width, height in pixels plus an identity tag that
stands for the pixel content (loading, pasting and copying preserve it). -/
structure Image where
  w : Nat
  h : Nat
  tag : Nat
deriving DecidableEq

/-- Filesystem model: association list from path to image content.
Later entries never shadow earlier ones because writes first erase the key. -/
abbrev FS := List (String × Image)

/-- Read the file at a path, none when missing (or unreadable). -/
def fsLookup (fs : FS) (p : String) : Option Image :=
  (fs.find? (fun e => e.1 = p)).map (fun e => e.2)

/-- Remove the file at a path. -/
def fsErase (fs : FS) (p : String) : FS :=
  fs.filter (fun e => ¬ e.1 = p)

/-- Write (create or overwrite) the file at a path. -/
def fsWrite (fs : FS) (p : String) (img : Image) : FS :=
  fsErase fs p ++ [(p, img)]

/-- Mirrors the helper that loads a list of image paths, silently
skipping missing or unreadable files. -/
def loadImages (fs : FS) (paths : List String) : List Image :=
  paths.filterMap (fun p => fsLookup fs p)

/- ---------- character-level path utilities ---------- -/

/-- Character class of the regex fragment for digits. -/
def isDigitC (c : Char) : Bool := c.isDigit

/-- Character class of the regex fragment [A-Za-z0-9]. -/
def isAlnumC (c : Char) : Bool := c.isAlpha || c.isDigit

/-- Replace every backslash by a forward slash (mirrors replace on the
path string). -/
def pNormC (cs : List Char) : List Char :=
  cs.map (fun c => if c = '\\' then '/' else c)

/-- Final path component: everything after the last forward slash. -/
def fileNameC (cs : List Char) : List Char :=
  (cs.reverse.takeWhile (fun c => ¬ c = '/')).reverse

/-- Mirrors str(Path(p).parent): everything before the last slash, with
the root kept as a single slash and a bare filename giving a dot. -/
def parentC (cs : List Char) : List Char :=
  if '/' ∈ cs then
    if ((cs.reverse.dropWhile (fun c => ¬ c = '/')).reverse).dropLast = [] then ['/']
    else ((cs.reverse.dropWhile (fun c => ¬ c = '/')).reverse).dropLast
  else ['.']

/-- Mirrors (Path(parent) / name).as_posix(): pathlib drops a lone dot
component and collapses the root slash. -/
def joinParentC (par nm : List Char) : List Char :=
  if par = ['.'] then nm
  else if par = ['/'] then '/' :: nm
  else par ++ '/' :: nm

/-- Mirrors the Python stem/suffix split of a filename: the suffix starts
at the last dot provided that dot is neither the first nor the last
character; otherwise the suffix is empty. Returns (stem, suffix). -/
def pySplitExt (nm : List Char) : List Char × List Char :=
  match nm.reverse.findIdx? (fun c => c = '.') with
  | none => (nm, [])
  | some j =>
    if 0 < nm.length - 1 - j ∧ ¬ j = 0 then
      (nm.take (nm.length - 1 - j), nm.drop (nm.length - 1 - j))
    else (nm, [])

/-- Decimal digit character for a value below ten. -/
def digitChar (d : Nat) : Char := Char.ofNat (48 + d)

/-- Fuel-driven digit accumulator; the fuel is always sufficient at the
call below since dividing by ten strictly shrinks a positive number. -/
def natDigitsGo : Nat → Nat → List Char → List Char
  | 0, _, acc => acc
  | fuel + 1, n, acc =>
    if n < 10 then digitChar n :: acc
    else natDigitsGo fuel (n / 10) (digitChar (n % 10) :: acc)

/-- Decimal digits of a number, most significant first, mirroring the
decimal rendering of a nonnegative integer. -/
def natDigits (n : Nat) : List Char := natDigitsGo (n + 1) n []

/-- Zero-padded decimal rendering with minimum width, as in a Python
format spec 0 pad d for a nonnegative number. -/
def padNumC (n pad : Nat) : List Char :=
  let ds := natDigits n
  List.replicate (pad - ds.length) '0' ++ ds

/- ---------- string wrappers ---------- -/

def pNorm (s : String) : String := ⟨pNormC s.data⟩

def fileNameS (s : String) : String := ⟨fileNameC s.data⟩

def parentS (s : String) : String := ⟨parentC s.data⟩

def joinParentS (par nm : String) : String := ⟨joinParentC par.data nm.data⟩

def padS (n pad : Nat) : String := ⟨padNumC n pad⟩

/- ---------- the filename pattern of normalize_frame_numbers ----------

The source matches filenames against the anchored regex
  (prefix lazy-any-then-underscore)(digits)(dot alnum-extension)
with a lazy prefix. The matcher below scans for the first underscore
whose tail parses as digits followed by a dot-alnum extension, which is
exactly the lazy-regex semantics. -/

/-- Parse a digit run followed by a dot and a nonempty alphanumeric
extension, the way the regex tail matches after the prefix underscore.
Returns (digits, suffix including the dot). -/
def parseTail (t : List Char) : Option (List Char × List Char) :=
  if t.takeWhile isDigitC = [] then none
  else
    match t.dropWhile isDigitC with
    | '.' :: ext =>
      if ¬ ext = [] ∧ ext.all isAlnumC then some (t.takeWhile isDigitC, '.' :: ext)
      else none
    | _ => none

/-- Lazy-prefix scan: return the decomposition at the first underscore
whose tail parses, as (prefix including the underscore, digits, suffix). -/
def findUnd : List Char → Option (List Char × List Char × List Char)
  | [] => none
  | c :: rest =>
    if c = '_' then
      match parseTail rest with
      | some x => some ([c], x.1, x.2)
      | none => (findUnd rest).map (fun x => (c :: x.1, x.2.1, x.2.2))
    else (findUnd rest).map (fun x => (c :: x.1, x.2.1, x.2.2))

/-- Compute the normalized path for one frame at the given index: on a
regex match only the digit run is replaced by the padded index; otherwise
an underscore-index segment is appended before the extension (defaulting
to the png extension when the filename has none). The directory part is
kept. -/
def normalizePath (p : String) (idx pad : Nat) : String :=
  match findUnd (fileNameC (pNormC p.data)) with
  | some x =>
    ⟨joinParentC (parentC (pNormC p.data)) (x.1 ++ padNumC idx pad ++ x.2.2)⟩
  | none =>
    ⟨joinParentC (parentC (pNormC p.data))
      ((pySplitExt (fileNameC (pNormC p.data))).1 ++ '_' ::
        (padNumC idx pad ++
          (if (pySplitExt (fileNameC (pNormC p.data))).2 = []
           then ('.' :: ['p', 'n', 'g'])
           else (pySplitExt (fileNameC (pNormC p.data))).2)))⟩

/-- Python dict insertion semantics: update the value in place when the
key is present, otherwise append the pair. -/
def dictInsert {α : Type} (d : List (String × α)) (k : String) (v : α) : List (String × α) :=
  if d.any (fun e => e.1 = k) then
    d.map (fun e => if e.1 = k then (k, v) else e)
  else d ++ [(k, v)]

/-- Dict lookup for association lists built with dictInsert. -/
def dictFind {α : Type} (d : List (String × α)) (k : String) : Option α :=
  (d.find? (fun e => e.1 = k)).map (fun e => e.2)

/-- Inner loop of normalize_frame_numbers on one pose: walk the frame
list in order with the running index, computing the new path for each
frame and recording a rename-map entry exactly when the new path differs
from the normalized current path. -/
def normalizePoseGo (startIndex pad : Nat) :
    Nat → List String → List (String × String) →
    List String × List (String × String)
  | _, [], rmap => ([], rmap)
  | k, p :: rest, rmap =>
    let pn := pNorm p
    let newPath := normalizePath p (startIndex + k) pad
    let rm := if ¬ newPath = pn then dictInsert rmap pn newPath else rmap
    let r := normalizePoseGo startIndex pad (k + 1) rest rm
    (newPath :: r.1, r.2)

/-- Renumber the frames of one pose, threading the shared rename map. -/
def normalizePose (paths : List String) (startIndex pad : Nat)
    (rmap : List (String × String)) : List String × List (String × String) :=
  normalizePoseGo startIndex pad 0 paths rmap

/-- Outer loop of normalize_frame_numbers over the poses. -/
def normalizeFrameNumbersGo (startIndex pad : Nat) :
    List (String × List String) → List (String × String) →
    List (String × List String) × List (String × String)
  | [], rmap => ([], rmap)
  | e :: rest, rmap =>
    let r := normalizePose e.2 startIndex pad rmap
    let r2 := normalizeFrameNumbersGo startIndex pad rest r.2
    ((e.1, r.1) :: r2.1, r2.2)

/-- Mirrors normalize_frame_numbers: returns the renumbered pose map and
the rename plan restricted to paths that changed. -/
def normalizeFrameNumbers (byPose : List (String × List String))
    (startIndex : Nat := 1) (pad : Nat := 2) :
    List (String × List String) × List (String × String) :=
  normalizeFrameNumbersGo startIndex pad byPose []

/-- One entry of apply_renames: skip when the source path is missing,
else either fail for an environmental reason (leaving the filesystem
unchanged) or atomically replace-rename, overwriting any file already at
the destination. -/
def applyRenameOne (fs : FS) (old new : String) (failHere : Bool) : FS :=
  match fsLookup fs old with
  | some img => if failHere then fs else fsWrite (fsErase fs old) new img
  | none => fs

/-- Entry-by-entry loop of apply_renames; the oracle indexed by entry
position stands for environmental failures of the underlying rename,
which the source swallows per entry. -/
def applyRenamesGo (fails : Nat → Bool) : Nat → List (String × String) → FS → FS
  | _, [], fs => fs
  | i, e :: rest, fs => applyRenamesGo fails (i + 1) rest (applyRenameOne fs e.1 e.2 (fails i))

/-- Mirrors apply_renames over the filesystem model: best effort, one
entry at a time, never aborting on an individual failure. -/
def applyRenames (rmap : List (String × String)) (fails : Nat → Bool) (fs : FS) : FS :=
  applyRenamesGo fails 0 rmap fs

/-- Mirrors create_gif: load the frames (skipping unreadable ones); when
nothing loads, return no written file; otherwise the looping animation is
written at the output path from the loaded images in order. -/
def createGif (fs : FS) (frames : List String) (outGifPath : String) (fps : Nat) :
    Option (String × List Image) :=
  let imgs := loadImages fs frames
  if imgs = [] then none else some (outGifPath, imgs)

/- ---------- sheet compositor with atlas emission ---------- -/

/-- One paste operation onto the sheet canvas: the image composited at a
pixel position (offsets can be negative when a frame is larger than a
fixed cell, since the centering division floors). -/
structure Paste where
  img : Image
  px : Int
  py : Int
deriving DecidableEq

/-- The composited sheet canvas: its pixel size and the paste operations
performed on it, in order. -/
structure Sheet where
  w : Nat
  h : Nat
  pastes : List Paste
deriving DecidableEq

/-- The meta block of the atlas document. -/
structure AtlasMeta where
  image : String
  sizeW : Nat
  sizeH : Nat
  cellW : Nat
  cellH : Nat
  fixedCell : Bool
  columns : Nat
deriving DecidableEq

/-- One atlas record: destination cell rect (fx, fy, fw, fh), the sprite
source sub-rect, the source size, pose, 1-based index and source path.
The constant pivot of one half in each axis is not repeated here. -/
structure AtlasFrame where
  filename : String
  pose : String
  index : Nat
  fx : Nat
  fy : Nat
  fw : Nat
  fh : Nat
  rotated : Bool
  trimmed : Bool
  ssx : Int
  ssy : Int
  ssw : Nat
  ssh : Nat
  sourceW : Nat
  sourceH : Nat
  src : String
deriving DecidableEq

/-- The atlas document. -/
structure Atlas where
  meta : AtlasMeta
  frames : List AtlasFrame
deriving DecidableEq

/-- Python truthiness of an optional nonnegative integer. -/
def truthy (o : Option Nat) : Bool :=
  match o with
  | some n => ¬ n = 0
  | none => false

/-- Mirrors the column-count computation: the requested count when it is
truthy, else one, then clamped from below by one. -/
def pyCols (sheetCols : Int) : Nat :=
  (max (if sheetCols = 0 then 1 else sheetCols) 1).toNat

/-- Rows of the sheet build: for each pose with a nonempty path list, the
loaded images together with the original path list; poses none of whose
frames load contribute no row. -/
def sheetRows (fs : FS) (framesByPose : List (String × List String)) :
    List (List Image × List String) :=
  (framesByPose.filter (fun e => ¬ e.2 = [])).filterMap (fun e =>
    if loadImages fs e.2 = [] then none
    else some (loadImages fs e.2, e.2))

/-- Pose names aligned with the filtered (nonempty) pose list; the source
indexes this list by the row number, which can drift from the actual row
when a pose with no loadable frame is skipped. -/
def sheetPoses (framesByPose : List (String × List String)) : List String :=
  (framesByPose.filter (fun e => ¬ e.2 = [])).map (fun e => e.1)

/-- Maximum width over all loaded frames of all rows. -/
def inferCellW (rows : List (List Image × List String)) : Nat :=
  rows.foldl (fun m r => r.1.foldl (fun m i => max m i.w) m) 0

/-- Maximum height over all loaded frames of all rows. -/
def inferCellH (rows : List (List Image × List String)) : Nat :=
  rows.foldl (fun m r => r.1.foldl (fun m i => max m i.h) m) 0

/-- The paste of one frame during the atlas-producing pass: centered in
its cell under fixed-cell mode, else at the cell top-left; the image is
composited unscaled. -/
def mkPaste (fixedCell : Bool) (cw ch r c : Nat) (img : Image) : Paste :=
  let x : Int := (c * cw : Nat)
  let y : Int := (r * ch : Nat)
  if fixedCell then
    { img := img, px := x + ((cw : Int) - (img.w : Int)).fdiv 2,
      py := y + ((ch : Int) - (img.h : Int)).fdiv 2 }
  else
    { img := img, px := x, py := y }

/-- The atlas record of one composited frame. -/
def mkAtlasFrame (fixedCell : Bool) (cw ch r c : Nat) (img : Image)
    (poseName : String) (atlasBasename : Option String) (srcPathRaw : String) : AtlasFrame :=
  let x := c * cw
  let y := r * ch
  let ox : Int := (x : Int) + ((cw : Int) - (img.w : Int)).fdiv 2
  let oy : Int := (y : Int) + ((ch : Int) - (img.h : Int)).fdiv 2
  let srcPath := pNorm srcPathRaw
  { filename := (atlasBasename.getD poseName) ++ "/" ++ fileNameS srcPath
    pose := poseName
    index := c + 1
    fx := x, fy := y, fw := cw, fh := ch
    rotated := false
    trimmed := fixedCell
    ssx := if fixedCell then ox - (x : Int) else 0
    ssy := if fixedCell then oy - (y : Int) else 0
    ssw := img.w, ssh := img.h
    sourceW := img.w, sourceH := img.h
    src := srcPath }

/-- Resolved cell size: the explicit cell when fixed-cell mode is on with
truthy dimensions, else the maximum width and height over all loaded
frames. -/
def resolveCell (rows : List (List Image × List String)) (fixedCell : Bool)
    (cellW cellH : Option Nat) : Nat × Nat :=
  if fixedCell && truthy cellW && truthy cellH then (cellW.getD 0, cellH.getD 0)
  else (inferCellW rows, inferCellH rows)

/-- The paste operations of the atlas-producing pass, one per loaded
frame, in row-major order. -/
def sheetPastes (fixedCell : Bool) (cw ch : Nat)
    (rows : List (List Image × List String)) : List Paste :=
  rows.enum.flatMap (fun rr =>
    rr.2.1.enum.map (fun cc => mkPaste fixedCell cw ch rr.1 cc.1 cc.2))

/-- The atlas records, one per loaded frame, in row-major order; the pose
name is looked up by row number in the nonempty-pose list, as the source
does. -/
def atlasFrames (fixedCell : Bool) (cw ch : Nat) (poses : List String)
    (atlasBasename : Option String)
    (rows : List (List Image × List String)) : List AtlasFrame :=
  rows.enum.flatMap (fun rr =>
    rr.2.1.enum.map (fun cc =>
      mkAtlasFrame fixedCell cw ch rr.1 cc.1 cc.2 (poses.getD rr.1 "")
        atlasBasename (rr.2.2.getD cc.1 "")))

/-- Mirrors create_sprite_sheet: build a row-per-pose sheet and its atlas.
Returns the output path, the composited sheet (none when nothing was
placeable, in which case no file is written) and the atlas document (none
mirrors the empty dict returned on the early exits). The function never
raises, so no error outcome exists. -/
def createSpriteSheet (fs : FS) (framesByPose : List (String × List String))
    (outSheetPath : String) (sheetCols : Int) (fixedCell : Bool)
    (cellW cellH : Option Nat) (atlasBasename : Option String) :
    String × Option Sheet × Option Atlas :=
  if framesByPose.filter (fun e => ¬ e.2 = []) = [] then (outSheetPath, none, none)
  else if sheetRows fs framesByPose = [] then (outSheetPath, none, none)
  else
    (outSheetPath,
      some { w := pyCols sheetCols *
                (resolveCell (sheetRows fs framesByPose) fixedCell cellW cellH).1,
             h := (sheetRows fs framesByPose).length *
                (resolveCell (sheetRows fs framesByPose) fixedCell cellW cellH).2,
             pastes := sheetPastes fixedCell
                (resolveCell (sheetRows fs framesByPose) fixedCell cellW cellH).1
                (resolveCell (sheetRows fs framesByPose) fixedCell cellW cellH).2
                (sheetRows fs framesByPose) },
      some { meta := { image := fileNameS outSheetPath,
                       sizeW := pyCols sheetCols *
                         (resolveCell (sheetRows fs framesByPose) fixedCell cellW cellH).1,
                       sizeH := (sheetRows fs framesByPose).length *
                         (resolveCell (sheetRows fs framesByPose) fixedCell cellW cellH).2,
                       cellW := (resolveCell (sheetRows fs framesByPose) fixedCell cellW cellH).1,
                       cellH := (resolveCell (sheetRows fs framesByPose) fixedCell cellW cellH).2,
                       fixedCell := fixedCell,
                       columns := pyCols sheetCols },
             frames := atlasFrames fixedCell
                (resolveCell (sheetRows fs framesByPose) fixedCell cellW cellH).1
                (resolveCell (sheetRows fs framesByPose) fixedCell cellW cellH).2
                (sheetPoses framesByPose) atlasBasename
                (sheetRows fs framesByPose) })

/- ---------- legacy grouped builder (with downscaling) ---------- -/

/-- Mirrors the fit-to-cell step of the grouped builder: when the buffer
exceeds the cell in either dimension it is resized by nearest-neighbor to
the dimension-wise minimum with the cell, else left unchanged. -/
def resizeToCell (im : Image) (cw ch : Nat) : Image :=
  if im.w > cw ∨ im.h > ch then { w := min im.w cw, h := min im.h ch, tag := im.tag }
  else im

/-- One paste of the grouped builder: the post-trim buffer, the buffer as
pasted after the fit-to-cell resize, and its centered position. -/
structure GroupedPaste where
  srcIm : Image
  img : Image
  px : Nat
  py : Nat
deriving DecidableEq

/-- The sheet produced by the grouped builder. -/
structure GroupedSheet where
  cellW : Nat
  cellH : Nat
  w : Nat
  h : Nat
  pastes : List GroupedPaste
deriving DecidableEq

/-- Mirrors infer_frame_size: cell size from the first frame of the
representative list, after optional autotrim; loading raises on failure. -/
def inferFrameSize (fs : FS) (trim : Image → Image) (frames : List String)
    (autotrim : Bool) : Except String (Nat × Nat) :=
  match frames with
  | [] => Except.error ("no frames")
  | f :: _ =>
    match fsLookup fs f with
    | none => Except.error ("cannot load " ++ f)
    | some im0 =>
      let im := if autotrim then trim im0 else im0
      Except.ok (im.w, im.h)

/-- One frame of build_spritesheet_grouped: load (raising when the file
cannot be read), optionally autotrim, downsize by nearest neighbor when
the buffer exceeds the cell, and center in the cell at the padded grid
position. -/
def groupedFrame (fs : FS) (trim : Image → Image) (autotrim : Bool)
    (cw ch padding r c : Nat) (path : String) : Except String GroupedPaste :=
  match fsLookup fs path with
  | none => Except.error ("cannot load " ++ path)
  | some im0 =>
    let im1 := if autotrim then trim im0 else im0
    let im2 := resizeToCell im1 cw ch
    Except.ok
      { srcIm := im1, img := im2,
        px := c * (cw + padding) + (cw - im2.w) / 2,
        py := r * (ch + padding) + (ch - im2.h) / 2 }

/-- Mirrors build_spritesheet_grouped: one row per pose, frames left to
right, every loaded buffer optionally autotrimmed, downsized by nearest
neighbor when it exceeds the cell, then centered in its cell. Raises on
an empty mapping, an empty first pose, or any unloadable frame. -/
def buildSpritesheetGrouped (fs : FS) (trim : Image → Image)
    (framesByPose : List (String × List String)) (frameSize : Option (Nat × Nat))
    (padding : Nat) (autotrim : Bool) : Except String GroupedSheet :=
  if framesByPose = [] then Except.error ("No frames provided")
  else
    let anyFrames := (framesByPose.headD ("", [])).2
    if anyFrames = [] then Except.error ("No frames provided for first pose")
    else
      let cellRes : Except String (Nat × Nat) :=
        match frameSize with
        | some s => Except.ok s
        | none => inferFrameSize fs trim anyFrames autotrim
      match cellRes with
      | Except.error e => Except.error e
      | Except.ok cell =>
        let cw := cell.1
        let ch := cell.2
        let rows := framesByPose.length
        let cols := framesByPose.foldl (fun m e => max m e.2.length) 0
        let sheetW := if ¬ cols = 0 then cols * cw + (cols - 1) * padding else cw
        let sheetH := if ¬ rows = 0 then rows * ch + (rows - 1) * padding else ch
        match framesByPose.enum.mapM (fun re =>
            re.2.2.enum.mapM (fun ce =>
              groupedFrame fs trim autotrim cw ch padding re.1 ce.1 ce.2)) with
        | Except.error e => Except.error e
        | Except.ok rowPastes =>
          Except.ok { cellW := cw, cellH := ch, w := sheetW, h := sheetH,
                      pastes := rowPastes.flatten }

/- ---------- the poses pipeline ---------- -/

/-- A pose request entry: name and optional per-pose frame count. -/
structure PoseSpec where
  name : String
  frames : Option Int
deriving DecidableEq

/-- The pipeline request fields the core logic reads. -/
structure PosesPipelineRequest where
  image_path : String
  instruction : Option String
  edit_prompt : Option String
  use_nano : Bool
  modelName : Option String
  watermark_stub : Bool
  poses : List PoseSpec
  fps : Option Nat
  sheet_cols : Option Int
  out_dir : Option String
  basename : Option String
  fixed_cell : Bool
  cell_w : Option Nat
  cell_h : Option Nat
  pose_for_gif : Option String
  normalize_existing : Bool

/-- The edit-stage result record. -/
structure EditInfo where
  used_model : String
  edited_path : String
  reason : Option String
deriving DecidableEq

/-- The external collaborators of the pipeline: the initial filesystem
and the AI edit service, which may write files and either return an
EditInfo or raise. -/
structure PipeEnv where
  fs : FS
  applyEdit : FS → String → String → Option String → String → Bool →
    Except String (EditInfo × FS)

/-- Python or with string falsiness. -/
def pyOrStr (o : Option String) (d : String) : String :=
  match o with
  | some s => if ¬ s = "" then s else d
  | none => d

/-- Python or with integer falsiness. -/
def pyOrInt (o : Option Int) (d : Int) : Int :=
  match o with
  | some v => if ¬ v = 0 then v else d
  | none => d

/-- Python or with natural-number falsiness. -/
def pyOrNat (o : Option Nat) (d : Nat) : Nat :=
  match o with
  | some v => if ¬ v = 0 then v else d
  | none => d

/-- Stem of the final path component. -/
def stemS (s : String) : String := ⟨(pySplitExt (fileNameC s.data)).1⟩

/-- Frame fan-out count for one pose spec: the requested count when given
and positive, else four. -/
def fanOutCount (frames : Option Int) : Nat :=
  match frames with
  | some k => if k > 0 then k.toNat else 4
  | none => 4

/-- The frame paths written for one pose: one-based two-digit zero-padded
indices under the output directory. -/
def fanOutPaths (outDir base poseName : String) (n : Nat) : List String :=
  (List.range n).map (fun i =>
    outDir ++ "/" ++ base ++ "_" ++ poseName ++ "_" ++ padS (i + 1) 2 ++ ".png")

/-- The materialization stage: write a stub duplicate of the working
image for every fanned-out frame path, building the pose map (dict
semantics) and the flat list of written paths. -/
def materialize (fs : FS) (img : Image) (outDir base : String)
    (poses : List PoseSpec) : FS × List (String × List String) × List String :=
  poses.foldl
    (fun acc spec =>
      let n := fanOutCount spec.frames
      let ps := fanOutPaths outDir base spec.name n
      (ps.foldl (fun f p => fsWrite f p img) acc.1,
       dictInsert acc.2.1 spec.name ps, acc.2.2 ++ ps))
    (fs, [], [])

/-- The response payload fields the claims concern, together with the
final filesystem state. The sheet, atlas and gif fields stand for the
artifact files the stage functions would write. -/
structure PipePayload where
  frames : List String
  by_pose : List (String × List String)
  sprite_sheet : String
  atlas_path : String
  gif_path : String
  sheet : Option Sheet
  atlas : Option Atlas
  gif : Option (String × List Image)
  gif_pose : String
  base : String
  edit_info : EditInfo
  fsFinal : FS

/-- The pose list after the safety belt: defaults to a single idle pose
when none is provided. -/
def effectivePoses (req : PosesPipelineRequest) : List PoseSpec :=
  if req.poses = [] then [{ name := "idle", frames := none }] else req.poses

/-- The slash-normalized source image path of a request. -/
def srcPath (req : PosesPipelineRequest) : String := pNorm req.image_path

/-- The effective output directory of a request. -/
def effOutDir (req : PosesPipelineRequest) : String :=
  pNorm (pyOrStr req.out_dir ("assets/outputs"))

/-- The effective artifact basename of a request: the explicit basename
when truthy, else the stem of the source file. -/
def effBase (req : PosesPipelineRequest) : String :=
  pyOrStr req.basename (stemS (srcPath req))

/-- The effective edit instruction: edit prompt, else instruction, else
empty, stripped. -/
def effInstruction (req : PosesPipelineRequest) : String :=
  (pyOrStr req.edit_prompt (pyOrStr req.instruction (""))).trim

/-- The build-sheet stage as called by the pipeline: the call can in
principle propagate an exception to the pipeline, but create_sprite_sheet
always returns normally, so the stage always completes with ok and the
pipeline continues with whatever sheet and atlas came back. -/
def buildSheetStage (fs : FS) (poseFrameMap : List (String × List String))
    (sheetPath : String) (sheetCols : Int) (useFixed : Bool)
    (cellW cellH : Option Nat) (base : String) :
    Except String (String × Option Sheet × Option Atlas) :=
  Except.ok (createSpriteSheet fs poseFrameMap sheetPath sheetCols useFixed
    cellW cellH (some base))

/-- Mirrors the poses pipeline endpoint: default pose, frame-count
validation, source existence check, edit stage with soft failure,
materialization, optional normalization with on-disk renames, sheet and
atlas build, gif pose selection and gif build. Path resolution against
the working directory and URL assembly are not modeled; paths are used
as given. -/
def posesPipeline (env : PipeEnv) (req : PosesPipelineRequest) :
    Except String PipePayload :=
  let poses0 := effectivePoses req
  if poses0.any (fun s => match s.frames with | some k => k < 1 | none => false) then
    Except.error ("Invalid frames; must be >= 1 when provided.")
  else
    let src := srcPath req
    if (fsLookup env.fs src).isNone then Except.error ("Image not found: " ++ src)
    else
      let outDir := effOutDir req
      let base := effBase req
      let instructionUsed := effInstruction req
      let editRes : EditInfo × FS :=
        if req.use_nano || ¬ instructionUsed = "" then
          match env.applyEdit env.fs src instructionUsed req.modelName outDir req.watermark_stub with
          | Except.ok r => ({ r.1 with edited_path := pNorm r.1.edited_path }, r.2)
          | Except.error e =>
            ({ used_model := "error", edited_path := src, reason := some e }, env.fs)
        else ({ used_model := "none", edited_path := src, reason := none }, env.fs)
      let editInfo := editRes.1
      let srcImage := editInfo.edited_path
      match fsLookup editRes.2 srcImage with
      | none => Except.error ("cannot open " ++ srcImage)
      | some imSrc =>
        let mat := materialize editRes.2 imSrc outDir base poses0
        let nrm :=
          if req.normalize_existing then
            let r := normalizeFrameNumbers mat.2.1 1 2
            (r.1, applyRenames r.2 (fun _ => false) mat.1)
          else (mat.2.1, mat.1)
        let poseFrameMap := nrm.1
        let fs3 := nrm.2
        let useFixed := req.fixed_cell && truthy req.cell_w && truthy req.cell_h
        let sheetPath := outDir ++ "/" ++ base ++ "_sheet.png"
        let atlasPath := outDir ++ "/" ++ base ++ "_sheet.json"
        match buildSheetStage fs3 poseFrameMap sheetPath
          (pyOrInt req.sheet_cols 3) useFixed
          (if useFixed then req.cell_w else none)
          (if useFixed then req.cell_h else none) base with
        | Except.error e => Except.error e
        | Except.ok shres =>
        let firstNonempty := (poseFrameMap.find? (fun e => ¬ e.2 = [])).map (fun e => e.1)
        let poseForGif := pyOrStr req.pose_for_gif
          (pyOrStr firstNonempty ((poseFrameMap.headD ("", [])).1))
        let gifPath := outDir ++ "/" ++ base ++ ".gif"
        let gif :=
          match dictFind poseFrameMap poseForGif with
          | some l => if ¬ l = [] then createGif fs3 l gifPath (pyOrNat req.fps 8) else none
          | none => none
        Except.ok
          { frames := poseFrameMap.flatMap (fun e => e.2)
            by_pose := poseFrameMap
            sprite_sheet := shres.1
            atlas_path := atlasPath
            gif_path := gifPath
            sheet := shres.2.1
            atlas := shres.2.2
            gif := gif
            gif_pose := poseForGif
            base := base
            edit_info := editInfo
            fsFinal := fs3 }

/- ---------- predicates used by the claim statements ---------- -/

/-- The two destination rects, read as half-open pixel rectangles, do not
overlap. -/
def rectDisjoint (a b : AtlasFrame) : Prop :=
  a.fx + a.fw ≤ b.fx ∨ b.fx + b.fw ≤ a.fx ∨ a.fy + a.fh ≤ b.fy ∨ b.fy + b.fh ≤ a.fy

instance (a b : AtlasFrame) : Decidable (rectDisjoint a b) := by
  unfold rectDisjoint
  infer_instance

/-- The destination rect lies fully within the sheet canvas bounds. -/
def rectInBounds (m : AtlasMeta) (a : AtlasFrame) : Prop :=
  a.fx + a.fw ≤ m.sizeW ∧ a.fy + a.fh ≤ m.sizeH

instance (m : AtlasMeta) (a : AtlasFrame) : Decidable (rectInBounds m a) := by
  unfold rectInBounds
  infer_instance

/-- The returned atlas, when present, contains a record whose destination
rect leaves the sheet canvas bounds. -/
def atlasBad (res : String × Option Sheet × Option Atlas) : Prop :=
  match res.2.2 with
  | some a => ∃ fr ∈ a.frames, ¬ rectInBounds a.meta fr
  | none => False

instance (res : String × Option Sheet × Option Atlas) : Decidable (atlasBad res) := by
  unfold atlasBad
  cases res.2.2 with
  | none => exact isFalse id
  | some a => exact List.decidableBEx _ _

/-- Every stored image has positive pixel dimensions, as holds for every
raster file a loader can open. -/
def fsWellformed (fs : FS) : Prop := ∀ e ∈ fs, 1 ≤ e.2.w ∧ 1 ≤ e.2.h

/-- Number of poses contributing a row: nonempty path list and at least
one loadable frame. -/
def loadableRowCount (fs : FS) (byPose : List (String × List String)) : Nat :=
  ((byPose.filter (fun e => ¬ e.2 = [])).filter
    (fun e => ¬ loadImages fs e.2 = [])).length

/-- The filename has an extension that is either absent or a dot followed
by one or more alphanumerics (the shape the rename pattern accepts). -/
def goodExtC (nm : List Char) : Prop :=
  (pySplitExt nm).2 = [] ∨
    ∃ ext, (pySplitExt nm).2 = '.' :: ext ∧ ¬ ext = [] ∧ ext.all isAlnumC

/-- goodExtC of the filename of the slash-normalized path. -/
def goodExt (p : String) : Prop := goodExtC (fileNameC (pNormC p.data))

instance (nm : List Char) : Decidable (goodExtC nm) := by
  unfold goodExtC
  generalize (pySplitExt nm).2 = s
  match s with
  | [] => exact isTrue (Or.inl rfl)
  | a :: t =>
    refine decidable_of_iff (a = '.' ∧ ¬ t = [] ∧ t.all isAlnumC = true) ?_
    constructor
    · rintro ⟨ha, ht, hall⟩
      exact Or.inr ⟨t, by rw [ha], ht, hall⟩
    · rintro (h | ⟨ext, he, hne, hall⟩)
      · exact absurd h (List.cons_ne_nil a t)
      · injection he with h1 h2
        subst h1
        subst h2
        exact ⟨rfl, hne, hall⟩

instance (p : String) : Decidable (goodExt p) := by
  unfold goodExt
  infer_instance

/-- A string free of path separators in either direction. -/
def sepFree (s : String) : Prop := ¬ '/' ∈ s.data ∧ ¬ '\\' ∈ s.data

instance (s : String) : Decidable (sepFree s) := by
  unfold sepFree
  infer_instance

/-- An output directory the path model joins cleanly: nonempty, not the
bare dot or root, and without backslashes. -/
def wfOutDir (s : String) : Prop :=
  ¬ s = "" ∧ ¬ s = "." ∧ ¬ s = "/" ∧ ¬ '\\' ∈ s.data

instance (s : String) : Decidable (wfOutDir s) := by
  unfold wfOutDir
  infer_instance

/-- Concrete atlas used to witness the amended bounds claim: two loadable
one-by-one frames in one pose, two requested columns. -/
def c1WitnessAtlas : Atlas :=
  { meta := { image := ("s.png"), sizeW := 2, sizeH := 1, cellW := 1, cellH := 1,
              fixedCell := false, columns := 2 },
    frames :=
      [{ filename := ("p/a.png"), pose := ("p"), index := 1,
         fx := 0, fy := 0, fw := 1, fh := 1, rotated := false, trimmed := false,
         ssx := 0, ssy := 0, ssw := 1, ssh := 1, sourceW := 1, sourceH := 1,
         src := ("a.png") },
       { filename := ("p/b.png"), pose := ("p"), index := 2,
         fx := 1, fy := 0, fw := 1, fh := 1, rotated := false, trimmed := false,
         ssx := 0, ssy := 0, ssw := 1, ssh := 1, sourceW := 1, sourceH := 1,
         src := ("b.png") }] }

/-- One step of the materialization fold, named so the fold can be
reasoned about with a general accumulator. -/
def matStep (img : Image) (outDir base : String)
    (acc : FS × List (String × List String) × List String) (spec : PoseSpec) :
    FS × List (String × List String) × List String :=
  let n := fanOutCount spec.frames
  let ps := fanOutPaths outDir base spec.name n
  (ps.foldl (fun f p => fsWrite f p img) acc.1,
   dictInsert acc.2.1 spec.name ps, acc.2.2 ++ ps)

/-- Concrete environment for the edit soft-failure scenario: one source
image and an edit service that always raises. -/
def c9Env : PipeEnv :=
  { fs := [(("in/src.png"), ⟨3, 4, 7⟩)],
    applyEdit := fun _ _ _ _ _ _ => Except.error ("boom") }

/-- Concrete request for the edit soft-failure scenario. -/
def c9Req : PosesPipelineRequest :=
  { image_path := ("in/src.png")
    instruction := some ("make it red")
    edit_prompt := none
    use_nano := true
    modelName := none
    watermark_stub := true
    poses := [{ name := ("idle"), frames := some 1 }]
    fps := some 8
    sheet_cols := some 3
    out_dir := some ("out")
    basename := some ("b")
    fixed_cell := false
    cell_w := none
    cell_h := none
    pose_for_gif := none
    normalize_existing := true }

end Pixo

namespace Pixo

/- ================================================================
   Generic helper lemmas
   ================================================================ -/

theorem init_le_foldl_max (l : List Nat) (init : Nat) : init ≤ l.foldl max init := by
  induction l generalizing init with
  | nil => exact le_refl _
  | cons a t ih => exact le_trans (le_max_left _ _) (ih _)

theorem le_foldl_max (l : List Nat) (init x : Nat) (hx : x ∈ l) :
    x ≤ l.foldl max init := by
  induction l generalizing init with
  | nil => cases hx
  | cons a t ih =>
    rcases List.mem_cons.mp hx with rfl | h
    · exact le_trans (le_max_right init x) (init_le_foldl_max t _)
    · exact ih _ h

theorem takeWhile_digits (ds ext : List Char) (hdig : ∀ x ∈ ds, isDigitC x) :
    (ds ++ '.' :: ext).takeWhile isDigitC = ds := by
  induction ds with
  | nil => simp [List.takeWhile_cons, show isDigitC '.' = false by decide]
  | cons d t ih =>
    have hd : isDigitC d := hdig d (List.mem_cons_self d t)
    simp only [List.cons_append, List.takeWhile_cons, hd, if_true]
    rw [ih (fun x hx => hdig x (List.mem_cons_of_mem d hx))]

theorem dropWhile_digits (ds ext : List Char) (hdig : ∀ x ∈ ds, isDigitC x) :
    (ds ++ '.' :: ext).dropWhile isDigitC = '.' :: ext := by
  induction ds with
  | nil => simp [List.dropWhile_cons, show isDigitC '.' = false by decide]
  | cons d t ih =>
    have hd : isDigitC d := hdig d (List.mem_cons_self d t)
    simp only [List.cons_append, List.dropWhile_cons, hd]
    exact ih (fun x hx => hdig x (List.mem_cons_of_mem d hx))

/- ================================================================
   Lemmas about the filename pattern matcher
   ================================================================ -/

theorem parseTail_sound (t ds suf : List Char) (h : parseTail t = some (ds, suf)) :
    t = ds ++ suf ∧ ¬ ds = [] ∧ ds.all isDigitC ∧
      ∃ ext, suf = '.' :: ext ∧ ¬ ext = [] ∧ ext.all isAlnumC := by
  unfold parseTail at h
  split at h
  · exact absurd h (by simp)
  · rename_i hds
    split at h
    · rename_i ext hrest
      split at h
      · rename_i hext
        injection h with h1
        have hds2 : t.takeWhile isDigitC = ds := congrArg Prod.fst h1
        have hsuf : '.' :: ext = suf := congrArg Prod.snd h1
        refine ⟨?_, ?_, ?_, ext, hsuf.symm, hext.1, hext.2⟩
        · rw [← hds2, ← hsuf, ← hrest]
          exact (List.takeWhile_append_dropWhile isDigitC t).symm
        · rw [← hds2]
          exact hds
        · rw [← hds2, List.all_eq_true]
          intro x hx
          exact List.mem_takeWhile_imp hx
      · exact absurd h (by simp)
    · exact absurd h (by simp)

theorem parseTail_none_of_underscore (t : List Char) (h : '_' ∈ t) :
    parseTail t = none := by
  cases hpt : parseTail t with
  | none => rfl
  | some x =>
    obtain ⟨ht, hds, hdig, ext, hsuf, hne2, hall⟩ := parseTail_sound t x.1 x.2 (by rw [hpt])
    exfalso
    rw [ht, hsuf] at h
    rcases List.mem_append.mp h with hin | hin
    · have := List.all_eq_true.mp hdig _ hin
      simp [isDigitC] at this
    · rcases List.mem_cons.mp hin with heq | hin2
      · exact absurd heq (by decide)
      · have := List.all_eq_true.mp hall _ hin2
        simp [isAlnumC] at this

theorem parseTail_digits_ext (ds ext : List Char) (hds : ¬ ds = [])
    (hdig : ds.all isDigitC) (hext : ¬ ext = []) (hall : ext.all isAlnumC) :
    parseTail (ds ++ '.' :: ext) = some (ds, '.' :: ext) := by
  have htake := takeWhile_digits ds ext (fun x hx => List.all_eq_true.mp hdig x hx)
  have hdrop := dropWhile_digits ds ext (fun x hx => List.all_eq_true.mp hdig x hx)
  unfold parseTail
  rw [htake, hdrop, if_neg hds]
  simp [hext, hall]

theorem findUnd_map_case (c : Char) (rest : List Char) (pre ds suf : List Char)
    (h : (findUnd rest).map (fun x => (c :: x.1, x.2.1, x.2.2)) = some (pre, ds, suf))
    (ih : ∀ pre ds suf, findUnd rest = some (pre, ds, suf) →
      rest = pre ++ ds ++ suf ∧ (∃ pre0, pre = pre0 ++ ['_']) ∧
        parseTail (ds ++ suf) = some (ds, suf)) :
    c :: rest = pre ++ ds ++ suf ∧ (∃ pre0, pre = pre0 ++ ['_']) ∧
      parseTail (ds ++ suf) = some (ds, suf) := by
  rcases Option.map_eq_some'.mp h with ⟨x, hx, hmap⟩
  have hpre : c :: x.1 = pre := congrArg (fun y => y.1) hmap
  have hds : x.2.1 = ds := congrArg (fun y => y.2.1) hmap
  have hsuf : x.2.2 = suf := congrArg (fun y => y.2.2) hmap
  subst hpre
  subst hds
  subst hsuf
  obtain ⟨h1, ⟨pre0, hpre0⟩, h3⟩ := ih x.1 x.2.1 x.2.2 hx
  refine ⟨?_, ⟨c :: pre0, by rw [hpre0]; rfl⟩, h3⟩
  rw [List.cons_append, List.cons_append, ← h1]

theorem findUnd_sound (s : List Char) :
    ∀ pre ds suf, findUnd s = some (pre, ds, suf) →
      s = pre ++ ds ++ suf ∧ (∃ pre0, pre = pre0 ++ ['_']) ∧
        parseTail (ds ++ suf) = some (ds, suf) := by
  induction s with
  | nil => intro pre ds suf h; simp [findUnd] at h
  | cons c rest ih =>
    intro pre ds suf h
    unfold findUnd at h
    by_cases hc : c = '_'
    · rw [if_pos hc] at h
      cases hpt : parseTail rest with
      | some x =>
        rw [hpt] at h
        have hpre : [c] = pre := congrArg (fun y => y.1) (Option.some.inj h)
        have hds : x.1 = ds := congrArg (fun y => y.2.1) (Option.some.inj h)
        have hsuf : x.2 = suf := congrArg (fun y => y.2.2) (Option.some.inj h)
        subst hpre
        subst hds
        subst hsuf
        obtain ⟨hrest, _, _, _⟩ := parseTail_sound rest x.1 x.2 hpt
        subst hc
        exact ⟨by rw [hrest]; rfl, ⟨[], rfl⟩, by rw [← hrest]; exact hpt⟩
      | none =>
        rw [hpt] at h
        exact findUnd_map_case c rest pre ds suf h ih
    · rw [if_neg hc] at h
      exact findUnd_map_case c rest pre ds suf h ih

theorem findUnd_canonical (pre0 ds ext : List Char)
    (hds : ¬ ds = []) (hdig : ds.all isDigitC)
    (hext : ¬ ext = []) (hall : ext.all isAlnumC) :
    findUnd (pre0 ++ '_' :: (ds ++ '.' :: ext)) =
      some (pre0 ++ ['_'], ds, '.' :: ext) := by
  induction pre0 with
  | nil =>
    simp only [List.nil_append]
    unfold findUnd
    rw [if_pos rfl, parseTail_digits_ext ds ext hds hdig hext hall]
  | cons c p0 ih =>
    simp only [List.cons_append]
    unfold findUnd
    by_cases hc : c = '_'
    · rw [if_pos hc]
      have hnone : parseTail (p0 ++ '_' :: (ds ++ '.' :: ext)) = none :=
        parseTail_none_of_underscore _ (by
          rw [List.mem_append]
          exact Or.inr (List.mem_cons_self _ _))
      rw [hnone, ih]
      rfl
    · rw [if_neg hc, ih]
      rfl

/- ================================================================
   Lemmas about the character-level path utilities
   ================================================================ -/

theorem fileNameC_no_slash (cs : List Char) : ¬ '/' ∈ fileNameC cs := by
  intro h
  unfold fileNameC at h
  rw [List.mem_reverse] at h
  have := List.mem_takeWhile_imp h
  simp at this

theorem mem_fileNameC (cs : List Char) (x : Char) (h : x ∈ fileNameC cs) : x ∈ cs := by
  unfold fileNameC at h
  rw [List.mem_reverse] at h
  have := (List.takeWhile_sublist _).subset h
  rw [List.mem_reverse] at this
  exact this

theorem fileNameC_sepfree (cs : List Char) (h : ¬ '/' ∈ cs) : fileNameC cs = cs := by
  unfold fileNameC
  rw [List.takeWhile_eq_self_iff.mpr, List.reverse_reverse]
  intro x hx
  rw [List.mem_reverse] at hx
  simp only [decide_eq_true_eq]
  intro heq
  exact h (by rw [← heq]; exact hx)

theorem takeWhile_all_front {α : Type} (p : α → Bool) (l : List α) (a : α)
    (r : List α) (hl : ∀ x ∈ l, p x) (ha : p a = false) :
    (l ++ a :: r).takeWhile p = l := by
  induction l with
  | nil => simp [List.takeWhile_cons, ha]
  | cons x t ih =>
    have hx := hl x (List.mem_cons_self x t)
    simp only [List.cons_append, List.takeWhile_cons, hx, if_true]
    rw [ih (fun y hy => hl y (List.mem_cons_of_mem x hy))]

theorem dropWhile_all_front {α : Type} (p : α → Bool) (l : List α) (a : α)
    (r : List α) (hl : ∀ x ∈ l, p x) (ha : p a = false) :
    (l ++ a :: r).dropWhile p = a :: r := by
  induction l with
  | nil => simp [List.dropWhile_cons, ha]
  | cons x t ih =>
    have hx := hl x (List.mem_cons_self x t)
    simp only [List.cons_append, List.dropWhile_cons, hx, if_true]
    exact ih (fun y hy => hl y (List.mem_cons_of_mem x hy))

theorem fileNameC_append (xs nm : List Char) (h : ¬ '/' ∈ nm) :
    fileNameC (xs ++ '/' :: nm) = nm := by
  unfold fileNameC
  rw [List.reverse_append, List.reverse_cons, List.append_assoc,
    List.singleton_append]
  rw [takeWhile_all_front _ nm.reverse '/' xs.reverse
    (fun x hx => by
      rw [List.mem_reverse] at hx
      simp only [decide_eq_true_eq]
      intro heq
      exact h (by rw [← heq]; exact hx))
    (by simp)]
  exact List.reverse_reverse nm

theorem parentC_append (xs nm : List Char) (hnm : ¬ '/' ∈ nm) (hxs : ¬ xs = []) :
    parentC (xs ++ '/' :: nm) = xs := by
  unfold parentC
  rw [if_pos (by rw [List.mem_append]; exact Or.inr (List.mem_cons_self _ _))]
  rw [List.reverse_append, List.reverse_cons, List.append_assoc,
    List.singleton_append]
  rw [dropWhile_all_front _ nm.reverse '/' xs.reverse
    (fun x hx => by
      rw [List.mem_reverse] at hx
      simp only [decide_eq_true_eq]
      intro heq
      exact hnm (by rw [← heq]; exact hx))
    (by simp)]
  rw [List.reverse_cons, List.reverse_reverse, List.dropLast_concat]
  exact if_neg hxs

theorem parentC_root (nm : List Char) (hnm : ¬ '/' ∈ nm) :
    parentC ('/' :: nm) = ['/'] := by
  unfold parentC
  rw [if_pos (List.mem_cons_self _ _)]
  rw [List.reverse_cons]
  rw [dropWhile_all_front _ nm.reverse '/' []
    (fun x hx => by
      rw [List.mem_reverse] at hx
      simp only [decide_eq_true_eq]
      intro heq
      exact hnm (by rw [← heq]; exact hx))
    (by simp)]
  simp

theorem parentC_sepfree (cs : List Char) (h : ¬ '/' ∈ cs) : parentC cs = ['.'] := by
  unfold parentC
  rw [if_neg h]

theorem parentC_ne_nil (cs : List Char) : ¬ parentC cs = [] := by
  unfold parentC
  split
  · split
    · simp
    · assumption
  · simp

theorem mem_parentC (cs : List Char) (x : Char) (h : x ∈ parentC cs) :
    x ∈ cs ∨ x = '.' ∨ x = '/' := by
  unfold parentC at h
  split at h
  · split at h
    · rcases List.mem_singleton.mp h with rfl
      exact Or.inr (Or.inr rfl)
    · left
      have h1 := List.dropLast_subset _ h
      rw [List.mem_reverse] at h1
      have h2 := (List.dropWhile_sublist _).subset h1
      rw [List.mem_reverse] at h2
      exact h2
  · rcases List.mem_singleton.mp h with rfl
    exact Or.inr (Or.inl rfl)

theorem fileNameC_joinParentC (par nm : List Char) (hnm : ¬ '/' ∈ nm) :
    fileNameC (joinParentC par nm) = nm := by
  unfold joinParentC
  split
  · exact fileNameC_sepfree nm hnm
  · split
    · exact fileNameC_append [] nm hnm
    · exact fileNameC_append par nm hnm

theorem parentC_joinParentC (par nm : List Char) (hnm : ¬ '/' ∈ nm)
    (hpar : ¬ par = []) :
    parentC (joinParentC par nm) = par := by
  unfold joinParentC
  split
  · rename_i hdot
    rw [parentC_sepfree nm hnm, hdot]
  · split
    · rename_i hroot
      rw [parentC_root nm hnm, hroot]
    · exact parentC_append par nm hnm hpar

theorem pNormC_no_bs (cs : List Char) : ¬ '\\' ∈ pNormC cs := by
  intro h
  rcases List.mem_map.mp h with ⟨c, hc, heq⟩
  by_cases hb : c = '\\'
  · rw [if_pos hb] at heq
    exact absurd heq (by decide)
  · rw [if_neg hb] at heq
    exact hb heq

theorem pNormC_fixed (cs : List Char) (h : ¬ '\\' ∈ cs) : pNormC cs = cs := by
  induction cs with
  | nil => rfl
  | cons a t ih =>
    unfold pNormC
    simp only [List.map_cons]
    rw [if_neg (fun heq => h (by rw [heq]; exact List.mem_cons_self _ _))]
    have := ih (fun hm => h (List.mem_cons_of_mem a hm))
    unfold pNormC at this
    rw [this]

theorem mem_pNormC_of_ne (cs : List Char) (x : Char) (hx : x ∈ pNormC cs)
    (hslash : ¬ x = '/') : x ∈ cs := by
  rcases List.mem_map.mp hx with ⟨c, hc, heq⟩
  by_cases hb : c = '\\'
  · rw [if_pos hb] at heq
    exact absurd heq.symm hslash
  · rw [if_neg hb] at heq
    rw [← heq]
    exact hc

/- ================================================================
   Lemmas about decimal digit rendering
   ================================================================ -/

theorem digitChar_isDigit (d : Nat) (h : d < 10) : isDigitC (digitChar d) := by
  interval_cases d <;> decide

theorem natDigitsGo_all (fuel : Nat) :
    ∀ n acc, acc.all isDigitC → (natDigitsGo fuel n acc).all isDigitC := by
  induction fuel with
  | zero => intro n acc hacc; exact hacc
  | succ f ih =>
    intro n acc hacc
    unfold natDigitsGo
    split
    · rename_i hlt
      simp only [List.all_cons, Bool.and_eq_true]
      exact ⟨digitChar_isDigit n hlt, hacc⟩
    · rename_i hge
      refine ih _ _ ?_
      simp only [List.all_cons, Bool.and_eq_true]
      exact ⟨digitChar_isDigit _ (Nat.mod_lt _ (by omega)), hacc⟩

theorem natDigitsGo_ne_nil (fuel : Nat) :
    ∀ n acc, ¬ acc = [] → ¬ natDigitsGo fuel n acc = [] := by
  induction fuel with
  | zero => intro n acc hacc; exact hacc
  | succ f ih =>
    intro n acc hacc
    unfold natDigitsGo
    split
    · simp
    · exact ih _ _ (by simp)

theorem natDigits_all (n : Nat) : (natDigits n).all isDigitC :=
  natDigitsGo_all (n + 1) n [] rfl

theorem natDigits_ne_nil (n : Nat) : ¬ natDigits n = [] := by
  unfold natDigits natDigitsGo
  split
  · simp
  · exact natDigitsGo_ne_nil _ _ _ (by simp)

theorem padNumC_all (n pad : Nat) : (padNumC n pad).all isDigitC := by
  unfold padNumC
  rw [List.all_append, Bool.and_eq_true]
  constructor
  · rw [List.all_eq_true]
    intro x hx
    rw [List.eq_of_mem_replicate hx]
    decide
  · exact natDigits_all n

theorem padNumC_ne_nil (n pad : Nat) : ¬ padNumC n pad = [] := by
  unfold padNumC
  intro h
  rcases List.append_eq_nil.mp h with ⟨_, h2⟩
  exact natDigits_ne_nil n h2

theorem not_mem_of_all_digits (l : List Char) (c : Char) (h : l.all isDigitC)
    (hc : isDigitC c = false) : ¬ c ∈ l := by
  intro hm
  have := List.all_eq_true.mp h c hm
  rw [hc] at this
  cases this

theorem not_mem_of_all_alnum (l : List Char) (c : Char) (h : l.all isAlnumC)
    (hc : isAlnumC c = false) : ¬ c ∈ l := by
  intro hm
  have := List.all_eq_true.mp h c hm
  rw [hc] at this
  cases this

/- ================================================================
   Lemmas about normalizePath
   ================================================================ -/

theorem mem_joinParentC (par nm : List Char) (x : Char)
    (h : x ∈ joinParentC par nm) : x ∈ par ∨ x = '/' ∨ x ∈ nm := by
  unfold joinParentC at h
  split at h
  · exact Or.inr (Or.inr h)
  · split at h
    · rcases List.mem_cons.mp h with rfl | hm
      · exact Or.inr (Or.inl rfl)
      · exact Or.inr (Or.inr hm)
    · rcases List.mem_append.mp h with hm | hm
      · exact Or.inl hm
      · rcases List.mem_cons.mp hm with rfl | hm2
        · exact Or.inr (Or.inl rfl)
        · exact Or.inr (Or.inr hm2)

theorem pySplitExt_parts (nm : List Char) :
    (pySplitExt nm).1 ++ (pySplitExt nm).2 = nm := by
  unfold pySplitExt
  split
  · simp
  · split
    · exact List.take_append_drop _ nm
    · simp

theorem mem_pySplitExt_stem (nm : List Char) (x : Char)
    (h : x ∈ (pySplitExt nm).1) : x ∈ nm := by
  rw [← pySplitExt_parts nm]
  exact List.mem_append_left _ h

theorem mem_pySplitExt_ext (nm : List Char) (x : Char)
    (h : x ∈ (pySplitExt nm).2) : x ∈ nm := by
  rw [← pySplitExt_parts nm]
  exact List.mem_append_right _ h

theorem normalizePath_matched (p : String) (idx pad : Nat) (pre ds suf : List Char)
    (h : findUnd (fileNameC (pNormC p.data)) = some (pre, ds, suf)) :
    (normalizePath p idx pad).data =
      joinParentC (parentC (pNormC p.data)) (pre ++ padNumC idx pad ++ suf) := by
  unfold normalizePath
  rw [h]

theorem normalizePath_unmatched (p : String) (idx pad : Nat)
    (h : findUnd (fileNameC (pNormC p.data)) = none) :
    (normalizePath p idx pad).data =
      joinParentC (parentC (pNormC p.data))
        ((pySplitExt (fileNameC (pNormC p.data))).1 ++ '_' ::
          (padNumC idx pad ++
            (if (pySplitExt (fileNameC (pNormC p.data))).2 = []
             then ('.' :: ['p', 'n', 'g'])
             else (pySplitExt (fileNameC (pNormC p.data))).2))) := by
  unfold normalizePath
  rw [h]

theorem normalizePath_matched_name_noslash (p : String) (idx pad : Nat)
    (pre ds suf : List Char)
    (h : findUnd (fileNameC (pNormC p.data)) = some (pre, ds, suf)) :
    ¬ '/' ∈ pre ++ padNumC idx pad ++ suf := by
  obtain ⟨hnm, _, _⟩ := findUnd_sound _ _ _ _ h
  have hns := fileNameC_no_slash (pNormC p.data)
  intro hmem
  rcases List.mem_append.mp hmem with h1 | h2
  · rcases List.mem_append.mp h1 with ha | hb
    · exact hns (by rw [hnm]; exact List.mem_append_left _ (List.mem_append_left _ ha))
    · exact not_mem_of_all_digits _ '/' (padNumC_all idx pad) (by decide) hb
  · exact hns (by
      rw [hnm, List.append_assoc]
      exact List.mem_append_right _ (List.mem_append_right _ h2))

theorem normalizePath_matched_parts (p : String) (idx pad : Nat)
    (pre ds suf : List Char)
    (h : findUnd (fileNameC (pNormC p.data)) = some (pre, ds, suf)) :
    fileNameC ((normalizePath p idx pad).data) = pre ++ padNumC idx pad ++ suf ∧
      parentC ((normalizePath p idx pad).data) = parentC (pNormC p.data) := by
  have hns := normalizePath_matched_name_noslash p idx pad pre ds suf h
  rw [normalizePath_matched p idx pad pre ds suf h]
  exact ⟨fileNameC_joinParentC _ _ hns,
    parentC_joinParentC _ _ hns (parentC_ne_nil _)⟩

theorem no_bs_fileNameC_pNormC (cs : List Char) (x : Char)
    (h : x ∈ fileNameC (pNormC cs)) : ¬ x = '\\' := by
  intro heq
  subst heq
  exact pNormC_no_bs cs (mem_fileNameC _ _ h)

theorem no_bs_parentC_pNormC (cs : List Char) (x : Char)
    (h : x ∈ parentC (pNormC cs)) : ¬ x = '\\' := by
  intro heq
  subst heq
  rcases mem_parentC _ _ h with hm | hd | hs
  · exact pNormC_no_bs cs hm
  · cases hd
  · cases hs

theorem normalizePath_no_bs (p : String) (idx pad : Nat) :
    ¬ '\\' ∈ (normalizePath p idx pad).data := by
  intro hmem
  cases hf : findUnd (fileNameC (pNormC p.data)) with
  | some x =>
    rw [normalizePath_matched p idx pad x.1 x.2.1 x.2.2 (by rw [hf])] at hmem
    rcases mem_joinParentC _ _ _ hmem with hp | hs | hn
    · exact no_bs_parentC_pNormC _ _ hp rfl
    · cases hs
    · obtain ⟨hnm, _, _⟩ := findUnd_sound _ _ _ _ (show findUnd _ = some (x.1, x.2.1, x.2.2) by rw [hf])
      rcases List.mem_append.mp hn with h1 | h2
      · rcases List.mem_append.mp h1 with ha | hb
        · exact no_bs_fileNameC_pNormC p.data '\\'
            (by rw [hnm]; exact List.mem_append_left _ (List.mem_append_left _ ha)) rfl
        · exact not_mem_of_all_digits _ '\\' (padNumC_all idx pad) (by decide) hb
      · exact no_bs_fileNameC_pNormC p.data '\\'
          (by rw [hnm, List.append_assoc]
              exact List.mem_append_right _ (List.mem_append_right _ h2)) rfl
  | none =>
    rw [normalizePath_unmatched p idx pad hf] at hmem
    rcases mem_joinParentC _ _ _ hmem with hp | hs | hn
    · exact no_bs_parentC_pNormC _ _ hp rfl
    · cases hs
    · rcases List.mem_append.mp hn with h1 | h2
      · exact no_bs_fileNameC_pNormC p.data '\\' (mem_pySplitExt_stem _ _ h1) rfl
      · rcases List.mem_cons.mp h2 with he | h3
        · cases he
        · rcases List.mem_append.mp h3 with hb | hc
          · exact not_mem_of_all_digits _ '\\' (padNumC_all idx pad) (by decide) hb
          · by_cases hnil : (pySplitExt (fileNameC (pNormC p.data))).2 = []
            · rw [if_pos hnil] at hc
              rcases List.mem_cons.mp hc with he | h4
              · cases he
              · exact absurd h4 (by decide)
            · rw [if_neg hnil] at hc
              exact no_bs_fileNameC_pNormC p.data '\\' (mem_pySplitExt_ext _ _ hc) rfl

theorem string_eq_of_data (a b : String) (h : a.data = b.data) : a = b := by
  cases a
  cases b
  cases h
  rfl

theorem pNorm_fix_of_normalizePath (p : String) (idx pad : Nat) :
    pNorm (normalizePath p idx pad) = normalizePath p idx pad := by
  apply string_eq_of_data
  exact pNormC_fixed _ (normalizePath_no_bs p idx pad)

theorem normalizePath_fixpoint (p : String) (idx pad : Nat) (hgood : goodExt p) :
    normalizePath (normalizePath p idx pad) idx pad = normalizePath p idx pad := by
  have hq_nobs := normalizePath_no_bs p idx pad
  have hqdata : pNormC ((normalizePath p idx pad).data) =
      (normalizePath p idx pad).data := pNormC_fixed _ hq_nobs
  cases hf : findUnd (fileNameC (pNormC p.data)) with
  | some x =>
    have hf2 : findUnd (fileNameC (pNormC p.data)) = some (x.1, x.2.1, x.2.2) := by
      rw [hf]
    obtain ⟨hnm, ⟨pre0, hpre0⟩, hpt⟩ := findUnd_sound _ _ _ _ hf2
    obtain ⟨heq2, hds, hdig, ext, hsuf, hextne, hextall⟩ := parseTail_sound _ _ _ hpt
    have hq := normalizePath_matched p idx pad x.1 x.2.1 x.2.2 hf2
    obtain ⟨hfn, hpar⟩ := normalizePath_matched_parts p idx pad x.1 x.2.1 x.2.2 hf2
    have hshape : x.1 ++ padNumC idx pad ++ x.2.2 =
        pre0 ++ '_' :: (padNumC idx pad ++ '.' :: ext) := by
      rw [hpre0, hsuf]
      simp
    have hfind2 : findUnd (x.1 ++ padNumC idx pad ++ x.2.2) =
        some (x.1, padNumC idx pad, x.2.2) := by
      rw [hshape, findUnd_canonical pre0 _ ext (padNumC_ne_nil idx pad)
        (padNumC_all idx pad) hextne hextall, ← hpre0, ← hsuf]
    have hkey : findUnd (fileNameC (pNormC ((normalizePath p idx pad).data))) =
        some (x.1, padNumC idx pad, x.2.2) := by
      rw [hqdata, hfn, hfind2]
    have h2 := normalizePath_matched (normalizePath p idx pad) idx pad
      x.1 (padNumC idx pad) x.2.2 hkey
    apply string_eq_of_data
    rw [h2, hqdata, hpar, hq]
  | none =>
    have hq := normalizePath_unmatched p idx pad hf
    obtain ⟨ext0, hextif, hextne, hextall⟩ :
        ∃ ext0, (if (pySplitExt (fileNameC (pNormC p.data))).2 = []
            then ('.' :: ['p', 'n', 'g'])
            else (pySplitExt (fileNameC (pNormC p.data))).2) = '.' :: ext0 ∧
          ¬ ext0 = [] ∧ ext0.all isAlnumC := by
      rcases hgood with hnil | ⟨ext1, hse, hne, hall⟩
      · exact ⟨['p', 'n', 'g'], by rw [if_pos hnil], by decide, by decide⟩
      · refine ⟨ext1, ?_, hne, hall⟩
        rw [if_neg (by rw [hse]; exact List.cons_ne_nil _ _), hse]
    rw [hextif] at hq
    have hns : ¬ '/' ∈ (pySplitExt (fileNameC (pNormC p.data))).1 ++ '_' ::
        (padNumC idx pad ++ '.' :: ext0) := by
      intro hmem
      rcases List.mem_append.mp hmem with h1 | h2
      · exact fileNameC_no_slash _ (mem_pySplitExt_stem _ _ h1)
      · rcases List.mem_cons.mp h2 with he | h3
        · cases he
        · rcases List.mem_append.mp h3 with hb | hc
          · exact not_mem_of_all_digits _ '/' (padNumC_all idx pad) (by decide) hb
          · rcases List.mem_cons.mp hc with he2 | h4
            · cases he2
            · exact not_mem_of_all_alnum _ '/' hextall (by decide) h4
    have hfn : fileNameC ((normalizePath p idx pad).data) =
        (pySplitExt (fileNameC (pNormC p.data))).1 ++ '_' ::
          (padNumC idx pad ++ '.' :: ext0) := by
      rw [hq]
      exact fileNameC_joinParentC _ _ hns
    have hpar : parentC ((normalizePath p idx pad).data) =
        parentC (pNormC p.data) := by
      rw [hq]
      exact parentC_joinParentC _ _ hns (parentC_ne_nil _)
    have hfind2 : findUnd ((pySplitExt (fileNameC (pNormC p.data))).1 ++ '_' ::
        (padNumC idx pad ++ '.' :: ext0)) =
        some ((pySplitExt (fileNameC (pNormC p.data))).1 ++ ['_'],
          padNumC idx pad, '.' :: ext0) :=
      findUnd_canonical _ _ ext0 (padNumC_ne_nil idx pad) (padNumC_all idx pad)
        hextne hextall
    have hkey : findUnd (fileNameC (pNormC ((normalizePath p idx pad).data))) =
        some ((pySplitExt (fileNameC (pNormC p.data))).1 ++ ['_'],
          padNumC idx pad, '.' :: ext0) := by
      rw [hqdata, hfn, hfind2]
    have h2 := normalizePath_matched (normalizePath p idx pad) idx pad
      _ (padNumC idx pad) ('.' :: ext0) hkey
    apply string_eq_of_data
    rw [h2, hqdata, hpar, hq]
    congr 1
    simp

theorem normalizePath_canonical (p : String) (dir pfx : List Char) (i pad : Nat)
    (hp : p.data = dir ++ '/' ::
      (pfx ++ '_' :: (padNumC i pad ++ '.' :: ['p', 'n', 'g'])))
    (hdirne : ¬ dir = []) (hdirdot : ¬ dir = ['.']) (hdirroot : ¬ dir = ['/'])
    (hdirbs : ¬ '\\' ∈ dir) (hpfxs : ¬ '/' ∈ pfx) (hpfxbs : ¬ '\\' ∈ pfx) :
    normalizePath p i pad = p := by
  have hnm_ns : ¬ '/' ∈ pfx ++ '_' :: (padNumC i pad ++ '.' :: ['p', 'n', 'g']) := by
    intro hmem
    rcases List.mem_append.mp hmem with h1 | h2
    · exact hpfxs h1
    · rcases List.mem_cons.mp h2 with he | h3
      · cases he
      · rcases List.mem_append.mp h3 with hb | hc
        · exact not_mem_of_all_digits _ '/' (padNumC_all i pad) (by decide) hb
        · exact absurd hc (by decide)
  have hbs : ¬ '\\' ∈ p.data := by
    rw [hp]
    intro hmem
    rcases List.mem_append.mp hmem with h1 | h2
    · exact hdirbs h1
    · rcases List.mem_cons.mp h2 with he | h3
      · cases he
      · rcases List.mem_append.mp h3 with hb | hc
        · exact hpfxbs hb
        · rcases List.mem_cons.mp hc with he2 | h4
          · cases he2
          · rcases List.mem_append.mp h4 with hd | he3
            · exact not_mem_of_all_digits _ '\\' (padNumC_all i pad) (by decide) hd
            · exact absurd he3 (by decide)
  have hpn : pNormC p.data = p.data := pNormC_fixed _ hbs
  have hfn : fileNameC (pNormC p.data) =
      pfx ++ '_' :: (padNumC i pad ++ '.' :: ['p', 'n', 'g']) := by
    rw [hpn, hp]
    exact fileNameC_append dir _ hnm_ns
  have hpar : parentC (pNormC p.data) = dir := by
    rw [hpn, hp]
    exact parentC_append dir _ hnm_ns hdirne
  have hfind : findUnd (fileNameC (pNormC p.data)) =
      some (pfx ++ ['_'], padNumC i pad, '.' :: ['p', 'n', 'g']) := by
    rw [hfn]
    exact findUnd_canonical pfx _ _ (padNumC_ne_nil i pad) (padNumC_all i pad)
      (by decide) (by decide)
  have h2 := normalizePath_matched p i pad _ _ _ hfind
  apply string_eq_of_data
  rw [h2, hpar, hp]
  unfold joinParentC
  rw [if_neg hdirdot, if_neg hdirroot]
  congr 1
  simp

/- ================================================================
   Lemmas about the dict model
   ================================================================ -/

theorem dictFind_map_ne {α : Type} (t : List (String × α)) (k q : String) (v : α)
    (hq : ¬ q = k) :
    dictFind (t.map (fun e => if e.1 = k then (k, v) else e)) q = dictFind t q := by
  induction t with
  | nil => rfl
  | cons x t ih =>
    by_cases hx : x.1 = k
    · unfold dictFind
      simp only [List.map_cons, if_pos hx, List.find?_cons]
      rw [show (decide (k = q)) = false from
        decide_eq_false (fun h => hq h.symm)]
      rw [show (decide (x.1 = q)) = false from
        decide_eq_false (by intro h; apply hq; rw [← h]; exact hx)]
      exact ih
    · unfold dictFind
      simp only [List.map_cons, if_neg hx, List.find?_cons]
      cases hdq : decide (x.1 = q)
      · exact ih
      · rfl

theorem dictFind_map_hit {α : Type} (t : List (String × α)) (k : String) (v : α)
    (hany : t.any (fun e => e.1 = k) = true) :
    dictFind (t.map (fun e => if e.1 = k then (k, v) else e)) k = some v := by
  induction t with
  | nil => cases hany
  | cons x t ih =>
    by_cases hx : x.1 = k
    · unfold dictFind
      simp only [List.map_cons, if_pos hx, List.find?_cons, decide_True]
      simp
    · unfold dictFind
      simp only [List.map_cons, if_neg hx, List.find?_cons]
      rw [show (decide (x.1 = k)) = false by simp [hx]]
      refine ih ?_
      rw [List.any_cons] at hany
      simp only [Bool.or_eq_true] at hany
      rcases hany with h1 | h2
      · exact absurd (of_decide_eq_true h1) hx
      · exact h2

theorem dictFind_append_one_hit {α : Type} (d : List (String × α)) (k : String) (v : α)
    (hany : d.any (fun e => e.1 = k) = false) :
    dictFind (d ++ [(k, v)]) k = some v := by
  induction d with
  | nil => simp [dictFind, List.find?]
  | cons x t ih =>
    rw [List.any_cons] at hany
    simp only [Bool.or_eq_false_iff] at hany
    unfold dictFind
    simp only [List.cons_append, List.find?_cons]
    rw [show (decide (x.1 = k)) = false by exact hany.1]
    exact ih hany.2

theorem dictFind_append_one_miss {α : Type} (d : List (String × α)) (k q : String)
    (v : α) (hq : ¬ q = k) :
    dictFind (d ++ [(k, v)]) q = dictFind d q := by
  induction d with
  | nil =>
    simp only [List.nil_append]
    unfold dictFind
    simp only [List.find?_cons]
    rw [show (decide (k = q)) = false from
      decide_eq_false (fun h => hq h.symm)]
  | cons x t ih =>
    unfold dictFind
    simp only [List.cons_append, List.find?_cons]
    cases hdq : decide (x.1 = q)
    · exact ih
    · rfl

theorem dictFind_dictInsert {α : Type} (d : List (String × α)) (k q : String) (v : α) :
    dictFind (dictInsert d k v) q = if q = k then some v else dictFind d q := by
  unfold dictInsert
  by_cases hany : d.any (fun e => e.1 = k) = true
  · rw [if_pos hany]
    by_cases hq : q = k
    · subst hq
      rw [if_pos rfl]
      exact dictFind_map_hit d q v hany
    · rw [if_neg hq]
      exact dictFind_map_ne d k q v hq
  · rw [if_neg hany]
    have hanyf : d.any (fun e => e.1 = k) = false := by
      cases h : d.any (fun e => e.1 = k)
      · rfl
      · exact absurd h hany
    by_cases hq : q = k
    · subst hq
      rw [if_pos rfl]
      exact dictFind_append_one_hit d q v hanyf
    · rw [if_neg hq]
      exact dictFind_append_one_miss d k q v hq

/- ================================================================
   Lemmas about the normalizer loops
   ================================================================ -/

theorem normalizePoseGo_fst (s pad : Nat) (paths : List String) :
    ∀ (k : Nat) (rmap : List (String × String)),
      (normalizePoseGo s pad k paths rmap).1 =
        paths.mapIdx (fun j p => normalizePath p (s + (k + j)) pad) := by
  induction paths with
  | nil => intro k rmap; rfl
  | cons p rest ih =>
    intro k rmap
    simp only [normalizePoseGo, List.mapIdx_cons, Nat.add_zero]
    rw [ih (k + 1) _]
    have hfe : (fun (j : Nat) (p2 : String) =>
        normalizePath p2 (s + (k + (j + 1))) pad) =
        (fun (j : Nat) (p2 : String) =>
          normalizePath p2 (s + ((k + 1) + j)) pad) := by
      funext j p2
      congr 1
      omega
    rw [hfe]

theorem normalizeFrameNumbersGo_fst (s pad : Nat)
    (byPose : List (String × List String)) :
    ∀ rmap, (normalizeFrameNumbersGo s pad byPose rmap).1 =
      byPose.map (fun e =>
        (e.1, e.2.mapIdx (fun j p => normalizePath p (s + j) pad))) := by
  induction byPose with
  | nil => intro rmap; rfl
  | cons e rest ih =>
    intro rmap
    simp only [normalizeFrameNumbersGo, List.map_cons]
    congr 1
    · unfold normalizePose
      rw [normalizePoseGo_fst]
      have hfe : (fun (j : Nat) (p2 : String) =>
          normalizePath p2 (s + (0 + j)) pad) =
          (fun (j : Nat) (p2 : String) => normalizePath p2 (s + j) pad) := by
        funext j p2
        congr 1
        omega
      rw [hfe]
    · exact ih _

theorem normalizeFrameNumbers_fst (byPose : List (String × List String))
    (s pad : Nat) :
    (normalizeFrameNumbers byPose s pad).1 =
      byPose.map (fun e =>
        (e.1, e.2.mapIdx (fun j p => normalizePath p (s + j) pad))) := by
  unfold normalizeFrameNumbers
  exact normalizeFrameNumbersGo_fst s pad byPose []

theorem normalizePoseGo_twice (s pad : Nat) (paths : List String)
    (hgood : ∀ p ∈ paths, goodExt p) :
    ∀ (k : Nat) (rmap rmap2 : List (String × String)),
      normalizePoseGo s pad k ((normalizePoseGo s pad k paths rmap).1) rmap2 =
        ((normalizePoseGo s pad k paths rmap).1, rmap2) := by
  induction paths with
  | nil => intro k rmap rmap2; rfl
  | cons p rest ih =>
    intro k rmap rmap2
    have hgp : goodExt p := hgood p (List.mem_cons_self _ _)
    have hgrest : ∀ q ∈ rest, goodExt q :=
      fun q hq => hgood q (List.mem_cons_of_mem p hq)
    have hfix := normalizePath_fixpoint p (s + k) pad hgp
    have hpn := pNorm_fix_of_normalizePath p (s + k) pad
    have hfe : (fun (j : Nat) (p2 : String) =>
        normalizePath p2 (s + (k + (j + 1))) pad) =
        (fun (j : Nat) (p2 : String) =>
          normalizePath p2 (s + ((k + 1) + j)) pad) := by
      funext j p2
      congr 1
      omega
    have hshift : ∀ (rm : List (String × String)),
        (normalizePoseGo s pad k (p :: rest) rm).1 =
          normalizePath p (s + k) pad ::
            (normalizePoseGo s pad (k + 1) rest rmap).1 := by
      intro rm
      rw [normalizePoseGo_fst s pad (p :: rest) k rm,
        normalizePoseGo_fst s pad rest (k + 1) rmap, List.mapIdx_cons,
        Nat.add_zero]
      congr 1
      exact congrArg (fun f => rest.mapIdx f) hfe
    rw [hshift rmap]
    simp only [normalizePoseGo]
    rw [hpn, hfix]
    rw [if_neg (fun h => h rfl)]
    rw [ih hgrest (k + 1) rmap rmap2]

theorem normalizeFrameNumbersGo_twice (s pad : Nat)
    (byPose : List (String × List String))
    (hgood : ∀ e ∈ byPose, ∀ p ∈ e.2, goodExt p) :
    ∀ (rmap rmap2 : List (String × String)),
      normalizeFrameNumbersGo s pad
          ((normalizeFrameNumbersGo s pad byPose rmap).1) rmap2 =
        ((normalizeFrameNumbersGo s pad byPose rmap).1, rmap2) := by
  induction byPose with
  | nil => intro rmap rmap2; rfl
  | cons e rest ih =>
    intro rmap rmap2
    have hge : ∀ p ∈ e.2, goodExt p := hgood e (List.mem_cons_self _ _)
    have hgrest : ∀ e2 ∈ rest, ∀ p ∈ e2.2, goodExt p :=
      fun e2 he2 => hgood e2 (List.mem_cons_of_mem e he2)
    have hshift : ∀ (rm : List (String × String)),
        (normalizeFrameNumbersGo s pad (e :: rest) rm).1 =
          (e.1, (normalizePose e.2 s pad rmap).1) ::
            (normalizeFrameNumbersGo s pad rest rmap).1 := by
      intro rm
      rw [normalizeFrameNumbersGo_fst s pad (e :: rest) rm,
        normalizeFrameNumbersGo_fst s pad rest rmap, List.map_cons]
      congr 1
      unfold normalizePose
      rw [normalizePoseGo_fst]
      have hfe0 : (fun (j : Nat) (p2 : String) =>
          normalizePath p2 (s + (0 + j)) pad) =
          (fun (j : Nat) (p2 : String) => normalizePath p2 (s + j) pad) := by
        funext j p2
        congr 1
        omega
      rw [hfe0]
    rw [hshift rmap]
    simp only [normalizeFrameNumbersGo]
    unfold normalizePose
    rw [normalizePoseGo_twice s pad e.2 hge 0 rmap rmap2]
    rw [ih hgrest rmap rmap2]

theorem normalizePoseGo_snd_keys (s pad : Nat) (paths : List String) :
    ∀ (k : Nat) (rmap : List (String × String)) (q : String),
      (dictFind (normalizePoseGo s pad k paths rmap).2 q).isSome = true ↔
        ((dictFind rmap q).isSome = true ∨
          ∃ j, ∃ (hj : j < paths.length),
            pNorm (paths.get ⟨j, hj⟩) = q ∧
            ¬ normalizePath (paths.get ⟨j, hj⟩) (s + (k + j)) pad =
              pNorm (paths.get ⟨j, hj⟩)) := by
  induction paths with
  | nil =>
    intro k rmap q
    constructor
    · intro h
      exact Or.inl h
    · rintro (h | ⟨j, hj, _⟩)
      · exact h
      · exact absurd hj (by simp)
  | cons p rest ih =>
    intro k rmap q
    simp only [normalizePoseGo]
    rw [ih (k + 1) _ q]
    have hBsplit :
        (∃ j, ∃ (hj : j < (p :: rest).length),
          pNorm ((p :: rest).get ⟨j, hj⟩) = q ∧
          ¬ normalizePath ((p :: rest).get ⟨j, hj⟩) (s + (k + j)) pad =
            pNorm ((p :: rest).get ⟨j, hj⟩)) ↔
        ((pNorm p = q ∧ ¬ normalizePath p (s + k) pad = pNorm p) ∨
          ∃ j, ∃ (hj : j < rest.length),
            pNorm (rest.get ⟨j, hj⟩) = q ∧
            ¬ normalizePath (rest.get ⟨j, hj⟩) (s + ((k + 1) + j)) pad =
              pNorm (rest.get ⟨j, hj⟩)) := by
      constructor
      · rintro ⟨j, hj, h1, h2⟩
        cases j with
        | zero =>
          left
          rw [show s + (k + 0) = s + k by omega] at h2
          exact ⟨h1, h2⟩
        | succ j2 =>
          right
          rw [show s + (k + (j2 + 1)) = s + ((k + 1) + j2) by omega] at h2
          exact ⟨j2, by simp only [List.length_cons] at hj; omega, h1, h2⟩
      · rintro (⟨h1, h2⟩ | ⟨j, hj, h1, h2⟩)
        · refine ⟨0, by simp, h1, ?_⟩
          rw [show s + (k + 0) = s + k by omega]
          exact h2
        · refine ⟨j + 1, by simp only [List.length_cons]; omega, h1, ?_⟩
          rw [show s + (k + (j + 1)) = s + ((k + 1) + j) by omega]
          exact h2
    have hCsplit :
        (dictFind
          (if ¬ normalizePath p (s + k) pad = pNorm p
           then dictInsert rmap (pNorm p) (normalizePath p (s + k) pad)
           else rmap) q).isSome = true ↔
        ((pNorm p = q ∧ ¬ normalizePath p (s + k) pad = pNorm p) ∨
          (dictFind rmap q).isSome = true) := by
      by_cases hch : ¬ normalizePath p (s + k) pad = pNorm p
      · rw [if_pos hch, dictFind_dictInsert]
        by_cases hq : q = pNorm p
        · rw [if_pos hq]
          constructor
          · intro _
            exact Or.inl ⟨hq.symm, hch⟩
          · intro _
            rfl
        · rw [if_neg hq]
          constructor
          · intro h
            exact Or.inr h
          · rintro (⟨h1, _⟩ | h)
            · exact absurd h1.symm hq
            · exact h
      · rw [if_neg hch]
        constructor
        · intro h
          exact Or.inr h
        · rintro (⟨_, h2⟩ | h)
          · exact absurd h2 hch
          · exact h
    rw [hBsplit, hCsplit]
    constructor
    · rintro ((hp | hr) | ha)
      · exact Or.inr (Or.inl hp)
      · exact Or.inl hr
      · exact Or.inr (Or.inr ha)
    · rintro (hr | (hp | ha))
      · exact Or.inl (Or.inr hr)
      · exact Or.inl (Or.inl hp)
      · exact Or.inr ha

theorem normalizePoseGo_snd_values (s pad : Nat) (paths : List String) :
    ∀ (k : Nat) (rmap : List (String × String)) (q v : String),
      dictFind (normalizePoseGo s pad k paths rmap).2 q = some v →
        dictFind rmap q = some v ∨
          ∃ j, ∃ (hj : j < paths.length),
            pNorm (paths.get ⟨j, hj⟩) = q ∧
            v = normalizePath (paths.get ⟨j, hj⟩) (s + (k + j)) pad ∧ ¬ v = q := by
  induction paths with
  | nil =>
    intro k rmap q v h
    exact Or.inl h
  | cons p rest ih =>
    intro k rmap q v h
    simp only [normalizePoseGo] at h
    rcases ih (k + 1) _ q v h with h1 | ⟨j, hj, h1, h2, h3⟩
    · by_cases hch : ¬ normalizePath p (s + k) pad = pNorm p
      · rw [if_pos hch, dictFind_dictInsert] at h1
        by_cases hq : q = pNorm p
        · rw [if_pos hq] at h1
          right
          refine ⟨0, by simp, hq.symm, ?_, ?_⟩
          · rw [show s + (k + 0) = s + k by omega]
            exact (Option.some.inj h1).symm
          · rw [← Option.some.inj h1, hq]
            exact hch
        · rw [if_neg hq] at h1
          exact Or.inl h1
      · rw [if_neg hch] at h1
        exact Or.inl h1
    · right
      refine ⟨j + 1, by simp only [List.length_cons] at hj ⊢; omega, h1, ?_, h3⟩
      rw [show s + (k + (j + 1)) = s + ((k + 1) + j) by omega]
      exact h2

theorem normalizeFrameNumbersGo_snd_keys (s pad : Nat)
    (byPose : List (String × List String)) :
    ∀ (rmap : List (String × String)) (q : String),
      (dictFind (normalizeFrameNumbersGo s pad byPose rmap).2 q).isSome = true ↔
        ((dictFind rmap q).isSome = true ∨
          ∃ i, ∃ (hi : i < byPose.length), ∃ j,
            ∃ (hj : j < (byPose.get ⟨i, hi⟩).2.length),
            pNorm ((byPose.get ⟨i, hi⟩).2.get ⟨j, hj⟩) = q ∧
            ¬ normalizePath ((byPose.get ⟨i, hi⟩).2.get ⟨j, hj⟩) (s + j) pad =
              pNorm ((byPose.get ⟨i, hi⟩).2.get ⟨j, hj⟩)) := by
  induction byPose with
  | nil =>
    intro rmap q
    constructor
    · intro h
      exact Or.inl h
    · rintro (h | ⟨i, hi, _⟩)
      · exact h
      · exact absurd hi (by simp)
  | cons e rest ih =>
    intro rmap q
    simp only [normalizeFrameNumbersGo]
    rw [ih _ q]
    unfold normalizePose
    rw [normalizePoseGo_snd_keys s pad e.2 0 rmap q]
    have hidx : ∀ j, s + (0 + j) = s + j := fun j => by omega
    constructor
    · rintro ((h | ⟨j, hj, h1, h2⟩) | ⟨i, hi, j, hj, h1, h2⟩)
      · exact Or.inl h
      · right
        rw [hidx j] at h2
        exact ⟨0, by simp, j, hj, h1, h2⟩
      · exact Or.inr ⟨i + 1, by simp only [List.length_cons] at hi ⊢; omega, j, hj, h1, h2⟩
    · rintro (h | ⟨i, hi, j, hj, h1, h2⟩)
      · exact Or.inl (Or.inl h)
      · cases i with
        | zero =>
          left
          right
          rw [← hidx j] at h2
          exact ⟨j, hj, h1, h2⟩
        | succ i2 =>
          right
          exact ⟨i2, by simp only [List.length_cons] at hi; omega, j, hj, h1, h2⟩

theorem normalizeFrameNumbersGo_snd_values (s pad : Nat)
    (byPose : List (String × List String)) :
    ∀ (rmap : List (String × String)) (q v : String),
      dictFind (normalizeFrameNumbersGo s pad byPose rmap).2 q = some v →
        dictFind rmap q = some v ∨
          ∃ i, ∃ (hi : i < byPose.length), ∃ j,
            ∃ (hj : j < (byPose.get ⟨i, hi⟩).2.length),
            pNorm ((byPose.get ⟨i, hi⟩).2.get ⟨j, hj⟩) = q ∧
            v = normalizePath ((byPose.get ⟨i, hi⟩).2.get ⟨j, hj⟩) (s + j) pad ∧
            ¬ v = q := by
  induction byPose with
  | nil =>
    intro rmap q v h
    exact Or.inl h
  | cons e rest ih =>
    intro rmap q v h
    simp only [normalizeFrameNumbersGo] at h
    rcases ih _ q v h with h1 | ⟨i, hi, j, hj, h1, h2, h3⟩
    · unfold normalizePose at h1
      rcases normalizePoseGo_snd_values s pad e.2 0 rmap q v h1 with
        h2 | ⟨j, hj, h2, h3, h4⟩
      · exact Or.inl h2
      · right
        rw [show s + (0 + j) = s + j by omega] at h3
        exact ⟨0, by simp, j, hj, h2, h3, h4⟩
    · exact Or.inr ⟨i + 1, by simp only [List.length_cons] at hi ⊢; omega, j, hj, h1, h2, h3⟩

/- ================================================================
   Lemmas about the filesystem model and apply_renames
   ================================================================ -/

theorem fsLookup_eq_dictFind (fs : FS) (p : String) :
    fsLookup fs p = dictFind fs p := rfl

theorem fsLookup_fsErase_self (fs : FS) (p : String) :
    fsLookup (fsErase fs p) p = none := by
  unfold fsLookup fsErase
  rw [List.find?_eq_none.mpr]
  · rfl
  · intro e he
    have h1 : ¬ e.1 = p := of_decide_eq_true ((List.mem_filter.mp he).2)
    simp [h1]

theorem fsLookup_fsErase_ne (fs : FS) (p q : String) (h : ¬ q = p) :
    fsLookup (fsErase fs p) q = fsLookup fs q := by
  induction fs with
  | nil => rfl
  | cons e t ih =>
    by_cases hep : e.1 = p
    · have h3 : ¬ p = q := fun hc => h hc.symm
      simpa [fsLookup, fsErase, List.filter_cons, List.find?_cons, hep, h3] using ih
    · by_cases heq : e.1 = q
      · simp [fsLookup, fsErase, List.filter_cons, List.find?_cons, hep, heq, h]
      · simpa [fsLookup, fsErase, List.filter_cons, List.find?_cons, hep, heq] using ih

theorem fsErase_any_false (fs : FS) (p : String) :
    (fsErase fs p).any (fun e => e.1 = p) = false := by
  rw [Bool.eq_false_iff]
  intro hc
  rcases List.any_eq_true.mp hc with ⟨e, he, hep⟩
  exact (of_decide_eq_true ((List.mem_filter.mp he).2)) (of_decide_eq_true hep)

theorem fsLookup_fsWrite (fs : FS) (p : String) (img : Image) (q : String) :
    fsLookup (fsWrite fs p img) q = if q = p then some img else fsLookup fs q := by
  unfold fsWrite
  by_cases hq : q = p
  · subst hq
    rw [if_pos rfl, fsLookup_eq_dictFind]
    exact dictFind_append_one_hit (fsErase fs q) q img (fsErase_any_false fs q)
  · rw [if_neg hq, fsLookup_eq_dictFind,
      dictFind_append_one_miss (fsErase fs p) p q img hq,
      ← fsLookup_eq_dictFind]
    exact fsLookup_fsErase_ne fs p q hq

theorem applyRenames_untouched (rmap : List (String × String)) :
    ∀ (fails : Nat → Bool) (i : Nat) (fs : FS) (p : String),
      (∀ e ∈ rmap, ¬ e.1 = p) → (fsLookup fs p).isSome = true →
        (fsLookup (applyRenamesGo fails i rmap fs) p).isSome = true := by
  induction rmap with
  | nil =>
    intro fails i fs p hnot hsome
    exact hsome
  | cons e rest ih =>
    intro fails i fs p hnot hsome
    unfold applyRenamesGo
    refine ih fails (i + 1) _ p
      (fun e2 he2 => hnot e2 (List.mem_cons_of_mem _ he2)) ?_
    unfold applyRenameOne
    cases hl : fsLookup fs e.1 with
    | none => exact hsome
    | some img =>
      dsimp only
      by_cases hf : fails i = true
      · rw [if_pos hf]
        exact hsome
      · rw [if_neg hf, fsLookup_fsWrite]
        by_cases hq : p = e.2
        · rw [if_pos hq]
          rfl
        · rw [if_neg hq, fsLookup_fsErase_ne]
          · exact hsome
          · intro hc
            exact hnot e (List.mem_cons_self _ _) (by rw [← hc])

/- ================================================================
   Lemmas about the grouped builder and resize
   ================================================================ -/

theorem resizeToCell_le_cell (im : Image) (cw ch : Nat) :
    (resizeToCell im cw ch).w ≤ cw ∧ (resizeToCell im cw ch).h ≤ ch := by
  unfold resizeToCell
  split
  · exact ⟨min_le_right _ _, min_le_right _ _⟩
  · rename_i hcond
    push_neg at hcond
    exact hcond

theorem resizeToCell_le_src (im : Image) (cw ch : Nat) :
    (resizeToCell im cw ch).w ≤ im.w ∧ (resizeToCell im cw ch).h ≤ im.h := by
  unfold resizeToCell
  split
  · exact ⟨min_le_left _ _, min_le_left _ _⟩
  · exact ⟨le_refl _, le_refl _⟩

theorem resizeToCell_id_of_fits (im : Image) (cw ch : Nat)
    (hw : im.w ≤ cw) (hh : im.h ≤ ch) : resizeToCell im cw ch = im := by
  unfold resizeToCell
  rw [if_neg]
  push_neg
  exact ⟨hw, hh⟩

theorem mapM_ok_mem {α β : Type} (f : α → Except String β) (l : List α) :
    ∀ res, l.mapM f = Except.ok res → ∀ b ∈ res, ∃ a ∈ l, f a = Except.ok b := by
  induction l with
  | nil =>
    intro res h b hb
    have h2 : (Except.ok ([] : List β) : Except String (List β)) = Except.ok res := h
    have hres := (Except.ok.inj h2).symm
    subst hres
    cases hb
  | cons a t ih =>
    intro res h b hb
    rw [List.mapM_cons] at h
    cases hfa : f a with
    | error e =>
      rw [hfa] at h
      have h2 : (Except.error e : Except String (List β)) = Except.ok res := h
      cases h2
    | ok b0 =>
      rw [hfa] at h
      cases hmt : t.mapM f with
      | error e =>
        rw [hmt] at h
        have h2 : (Except.error e : Except String (List β)) = Except.ok res := h
        cases h2
      | ok bs =>
        rw [hmt] at h
        have h2 : (Except.ok (b0 :: bs) : Except String (List β)) = Except.ok res := h
        have hres := (Except.ok.inj h2).symm
        subst hres
        rcases List.mem_cons.mp hb with rfl | hmem
        · exact ⟨a, List.mem_cons_self _ _, hfa⟩
        · rcases ih bs hmt b hmem with ⟨a2, ha2, hfa2⟩
          exact ⟨a2, List.mem_cons_of_mem _ ha2, hfa2⟩

theorem groupedFrame_ok (fs : FS) (trim : Image → Image) (autotrim : Bool)
    (cw ch padding r c : Nat) (path : String) (p : GroupedPaste)
    (h : groupedFrame fs trim autotrim cw ch padding r c path = Except.ok p) :
    p.img = resizeToCell p.srcIm cw ch := by
  unfold groupedFrame at h
  cases hl : fsLookup fs path with
  | none =>
    rw [hl] at h
    cases h
  | some im0 =>
    rw [hl] at h
    have := Except.ok.inj h
    rw [← this]

theorem buildSpritesheetGrouped_pastes (fs : FS) (trim : Image → Image)
    (framesByPose : List (String × List String)) (frameSize : Option (Nat × Nat))
    (padding : Nat) (autotrim : Bool) (sh : GroupedSheet)
    (h : buildSpritesheetGrouped fs trim framesByPose frameSize padding autotrim =
      Except.ok sh) :
    ∀ p ∈ sh.pastes, p.img = resizeToCell p.srcIm sh.cellW sh.cellH := by
  intro p hp
  simp only [buildSpritesheetGrouped] at h
  split at h
  · cases h
  · split at h
    · cases h
    · split at h
      · cases h
      · split at h
        · cases h
        · have hsh := Except.ok.inj h
          rw [← hsh] at hp
          simp only at hp
          rcases List.mem_flatten.mp hp with ⟨rl, hrl, hprl⟩
          rcases mapM_ok_mem _ _ _ (by assumption) rl hrl with ⟨re, hre, hinner⟩
          rcases mapM_ok_mem _ _ _ hinner p hprl with ⟨ce, hce, hgf⟩
          have hres := groupedFrame_ok _ _ _ _ _ _ _ _ _ _ hgf
          rw [← hsh]
          exact hres

/- ================================================================
   Lemmas about the sheet compositor
   ================================================================ -/

theorem mem_enumFrom_facts {α : Type} (l : List α) :
    ∀ (n : Nat) (x : Nat × α), x ∈ l.enumFrom n →
      n ≤ x.1 ∧ x.1 < n + l.length ∧ x.2 ∈ l := by
  induction l with
  | nil =>
    intro n x hx
    cases hx
  | cons a t ih =>
    intro n x hx
    rcases List.mem_cons.mp hx with rfl | hx2
    · exact ⟨le_refl _, by simp, List.mem_cons_self _ _⟩
    · obtain ⟨h1, h2, h3⟩ := ih (n + 1) x hx2
      exact ⟨by omega, by simp only [List.length_cons]; omega,
        List.mem_cons_of_mem _ h3⟩

theorem mem_enum_facts {α : Type} (l : List α) (x : Nat × α) (hx : x ∈ l.enum) :
    x.1 < l.length ∧ x.2 ∈ l := by
  obtain ⟨_, h2, h3⟩ := mem_enumFrom_facts l 0 x hx
  exact ⟨by omega, h3⟩

theorem enumFrom_pairwise_fst_lt {α : Type} (l : List α) :
    ∀ n, (l.enumFrom n).Pairwise (fun a b => a.1 < b.1) := by
  induction l with
  | nil => intro n; exact List.Pairwise.nil
  | cons a t ih =>
    intro n
    refine List.Pairwise.cons ?_ (ih (n + 1))
    intro x hx
    have := (mem_enumFrom_facts t (n + 1) x hx).1
    omega

theorem enum_pairwise_fst_lt {α : Type} (l : List α) :
    l.enum.Pairwise (fun a b => a.1 < b.1) :=
  enumFrom_pairwise_fst_lt l 0

theorem pairwise_flatMap {α β : Type} (R : β → β → Prop) (f : α → List β)
    (l : List α) (hin : ∀ a ∈ l, (f a).Pairwise R)
    (hcross : l.Pairwise (fun a b => ∀ x ∈ f a, ∀ y ∈ f b, R x y)) :
    (l.flatMap f).Pairwise R := by
  induction l with
  | nil => exact List.Pairwise.nil
  | cons a t ih =>
    rw [List.flatMap_cons, List.pairwise_append]
    rcases List.pairwise_cons.mp hcross with ⟨hhead, htail⟩
    refine ⟨hin a (List.mem_cons_self _ _),
      ih (fun b hb => hin b (List.mem_cons_of_mem _ hb)) htail, ?_⟩
    intro x hx y hy
    rcases List.mem_flatMap.mp hy with ⟨b, hb, hyb⟩
    exact hhead b hb x hx y hyb

theorem mem_sheetRows (fs : FS) (byPose : List (String × List String))
    (r : List Image × List String) (h : r ∈ sheetRows fs byPose) :
    ∃ e ∈ byPose, ¬ e.2 = [] ∧ r = (loadImages fs e.2, e.2) ∧
      ¬ loadImages fs e.2 = [] := by
  unfold sheetRows at h
  rcases List.mem_filterMap.mp h with ⟨e, he, hfe⟩
  have he2 := (List.mem_filter.mp he).1
  have hne : ¬ e.2 = [] := by
    have := (List.mem_filter.mp he).2
    simpa using this
  by_cases hl : loadImages fs e.2 = []
  · rw [if_pos hl] at hfe
    cases hfe
  · rw [if_neg hl] at hfe
    exact ⟨e, he2, hne, (Option.some.inj hfe).symm, hl⟩

theorem sheetRows_length (fs : FS) (byPose : List (String × List String)) :
    (sheetRows fs byPose).length = loadableRowCount fs byPose := by
  unfold sheetRows loadableRowCount
  generalize byPose.filter (fun e => ¬ e.2 = []) = L
  induction L with
  | nil => rfl
  | cons a t ih =>
    rw [List.filterMap_cons, List.filter_cons]
    by_cases hP : loadImages fs a.2 = []
    · simp [hP, ih]
    · simp [hP, ih]

theorem pyCols_eq_max (c : Int) : pyCols c = (max c 1).toNat := by
  unfold pyCols
  by_cases hc : c = 0
  · subst hc
    rfl
  · rw [if_neg hc]

theorem mkAtlasFrame_rect (fixedCell : Bool) (cw ch r c : Nat) (img : Image)
    (poseName : String) (atlasBasename : Option String) (srcPathRaw : String) :
    (mkAtlasFrame fixedCell cw ch r c img poseName atlasBasename srcPathRaw).fx =
      c * cw ∧
    (mkAtlasFrame fixedCell cw ch r c img poseName atlasBasename srcPathRaw).fy =
      r * ch ∧
    (mkAtlasFrame fixedCell cw ch r c img poseName atlasBasename srcPathRaw).fw =
      cw ∧
    (mkAtlasFrame fixedCell cw ch r c img poseName atlasBasename srcPathRaw).fh =
      ch :=
  ⟨rfl, rfl, rfl, rfl⟩

theorem mem_atlasFrames (fixedCell : Bool) (cw ch : Nat) (poses : List String)
    (atlasBasename : Option String) (rows : List (List Image × List String))
    (fr : AtlasFrame) (h : fr ∈ atlasFrames fixedCell cw ch poses atlasBasename rows) :
    ∃ rr ∈ rows.enum, ∃ cc ∈ rr.2.1.enum,
      fr = mkAtlasFrame fixedCell cw ch rr.1 cc.1 cc.2 (poses.getD rr.1 "")
        atlasBasename (rr.2.2.getD cc.1 "") := by
  unfold atlasFrames at h
  rcases List.mem_flatMap.mp h with ⟨rr, hrr, hfr⟩
  rcases List.mem_map.mp hfr with ⟨cc, hcc, heq⟩
  exact ⟨rr, hrr, cc, hcc, heq.symm⟩

theorem atlasFrames_inBounds (fixedCell : Bool) (cw ch : Nat) (poses : List String)
    (atlasBasename : Option String) (rows : List (List Image × List String))
    (cols : Nat) (hcols : ∀ r ∈ rows, r.1.length ≤ cols) :
    ∀ fr ∈ atlasFrames fixedCell cw ch poses atlasBasename rows,
      fr.fx + fr.fw ≤ cols * cw ∧ fr.fy + fr.fh ≤ rows.length * ch := by
  intro fr hfr
  rcases mem_atlasFrames fixedCell cw ch poses atlasBasename rows fr hfr with
    ⟨rr, hrr, cc, hcc, heq⟩
  obtain ⟨hr_lt, hr_mem⟩ := mem_enum_facts rows rr hrr
  obtain ⟨hc_lt, _⟩ := mem_enum_facts rr.2.1 cc hcc
  obtain ⟨hfx, hfy, hfw, hfh⟩ := mkAtlasFrame_rect fixedCell cw ch rr.1 cc.1 cc.2
    (poses.getD rr.1 "") atlasBasename (rr.2.2.getD cc.1 "")
  rw [heq, hfx, hfy, hfw, hfh]
  constructor
  · have hcc2 : cc.1 + 1 ≤ cols := le_trans hc_lt (hcols rr.2 hr_mem)
    calc cc.1 * cw + cw = (cc.1 + 1) * cw := by ring
      _ ≤ cols * cw := Nat.mul_le_mul_right cw hcc2
  · have hrr2 : rr.1 + 1 ≤ rows.length := hr_lt
    calc rr.1 * ch + ch = (rr.1 + 1) * ch := by ring
      _ ≤ rows.length * ch := Nat.mul_le_mul_right ch hrr2

theorem atlasFrames_pairwise (fixedCell : Bool) (cw ch : Nat) (poses : List String)
    (atlasBasename : Option String) (rows : List (List Image × List String)) :
    (atlasFrames fixedCell cw ch poses atlasBasename rows).Pairwise rectDisjoint := by
  unfold atlasFrames
  apply pairwise_flatMap
  · intro rr hrr
    refine List.Pairwise.map _ ?_ (enum_pairwise_fst_lt rr.2.1)
    intro a b hlt
    unfold rectDisjoint
    left
    obtain ⟨hfx, _, hfw, _⟩ := mkAtlasFrame_rect fixedCell cw ch rr.1 a.1 a.2
      (poses.getD rr.1 "") atlasBasename (rr.2.2.getD a.1 "")
    obtain ⟨hfx2, _, _, _⟩ := mkAtlasFrame_rect fixedCell cw ch rr.1 b.1 b.2
      (poses.getD rr.1 "") atlasBasename (rr.2.2.getD b.1 "")
    rw [hfx, hfw, hfx2]
    calc a.1 * cw + cw = (a.1 + 1) * cw := by ring
      _ ≤ b.1 * cw := Nat.mul_le_mul_right cw hlt
  · refine List.Pairwise.imp ?_ (enum_pairwise_fst_lt rows)
    intro rr1 rr2 hlt x hx y hy
    rcases List.mem_map.mp hx with ⟨cc1, _, hx2⟩
    rcases List.mem_map.mp hy with ⟨cc2, _, hy2⟩
    unfold rectDisjoint
    right
    right
    left
    obtain ⟨_, hfy, _, hfh⟩ := mkAtlasFrame_rect fixedCell cw ch rr1.1 cc1.1 cc1.2
      (poses.getD rr1.1 "") atlasBasename (rr1.2.2.getD cc1.1 "")
    obtain ⟨_, hfy2, _, _⟩ := mkAtlasFrame_rect fixedCell cw ch rr2.1 cc2.1 cc2.2
      (poses.getD rr2.1 "") atlasBasename (rr2.2.2.getD cc2.1 "")
    rw [← hx2, ← hy2, hfy, hfh, hfy2]
    calc rr1.1 * ch + ch = (rr1.1 + 1) * ch := by ring
      _ ≤ rr2.1 * ch := Nat.mul_le_mul_right ch hlt

/- ================================================================
   Claim theorems
   ================================================================ -/

/-- C8: calling the GIF assembler with an empty frame list is a no-op: no
file is written (the result carries no output) and the call returns
normally for every filesystem, output path and fps. -/
theorem createGif_empty_noop (fs : FS) (outGifPath : String) (fps : Nat) :
    createGif fs [] outGifPath fps = none := rfl

/-- C10: a pose spec that omits its frame count fans out to exactly four
frames, written with one-based two-digit zero-padded indices 01 through
04, and the materialization stage maps such a pose to exactly those four
paths. -/
theorem fanOut_omitted_count_four :
    fanOutCount none = 4 ∧
    (∀ outDir base pose : String,
      fanOutPaths outDir base pose (fanOutCount none) =
        [outDir ++ "/" ++ base ++ "_" ++ pose ++ "_" ++ "01" ++ ".png",
         outDir ++ "/" ++ base ++ "_" ++ pose ++ "_" ++ "02" ++ ".png",
         outDir ++ "/" ++ base ++ "_" ++ pose ++ "_" ++ "03" ++ ".png",
         outDir ++ "/" ++ base ++ "_" ++ pose ++ "_" ++ "04" ++ ".png"]) ∧
    (∀ (fs : FS) (img : Image) (outDir base pose : String),
      (materialize fs img outDir base [{ name := pose, frames := none }]).2.1 =
        [(pose, fanOutPaths outDir base pose 4)]) := by
  refine ⟨rfl, ?_, ?_⟩
  · intro outDir base pose
    show fanOutPaths outDir base pose 4 = _
    have hr : List.range 4 = [0, 1, 2, 3] := rfl
    unfold fanOutPaths
    rw [hr]
    simp only [List.map_cons, List.map_nil]
    rw [show padS (0 + 1) 2 = ("01") from rfl, show padS (1 + 1) 2 = ("02") from rfl,
      show padS (2 + 1) 2 = ("03") from rfl, show padS (3 + 1) 2 = ("04") from rfl]
  · intro fs img outDir base pose
    rfl

/-- C3 counterexample: called with a pose map whose only pose has an empty
frame list, the build-sheet stage completes normally, handing the pipeline
the output path with no sheet written and an empty atlas, rather than
aborting with a structured hard failure. -/
theorem buildSheetStage_empty_cex :
    buildSheetStage [] [(("idle"), [])] ("out/x_sheet.png") 3 false none none
      ("x") = Except.ok (("out/x_sheet.png"), none, none) := rfl

/-- C3 (amended): when no frames remain to place (every pose either has an
empty frame list or only unloadable frames), create_sprite_sheet returns
the given output path with no sheet and an empty atlas and raises nothing,
and the build-sheet stage completes with ok so the pipeline continues. -/
theorem buildSheetStage_no_frames_continues (fs : FS)
    (framesByPose : List (String × List String)) (sheetPath : String)
    (sheetCols : Int) (useFixed : Bool) (cellW cellH : Option Nat) (base : String)
    (h : ∀ e ∈ framesByPose, ∀ p ∈ e.2, fsLookup fs p = none) :
    buildSheetStage fs framesByPose sheetPath sheetCols useFixed cellW cellH base =
      Except.ok (sheetPath, none, none) := by
  have hrows : sheetRows fs framesByPose = [] := by
    unfold sheetRows
    rw [List.filterMap_eq_nil_iff]
    intro e he
    have he2 := (List.mem_filter.mp he).1
    have hload : loadImages fs e.2 = [] := by
      unfold loadImages
      rw [List.filterMap_eq_nil_iff]
      intro p hp
      exact h e he2 p hp
    simp [hload]
  unfold buildSheetStage
  simp only [createSpriteSheet]
  rw [hrows]
  simp

/-- C3 witness: the amended theorem applied to a concrete pose map with an
empty pose and one unloadable frame path. -/
theorem buildSheetStage_no_frames_continues_witness :
    buildSheetStage [] [(("idle"), []), (("walk"), [("missing.png")])]
        ("out/x_sheet.png") 3 false none none ("x") =
      Except.ok (("out/x_sheet.png"), none, none) :=
  buildSheetStage_no_frames_continues [] [(("idle"), []), (("walk"), [("missing.png")])]
    ("out/x_sheet.png") 3 false none none ("x") (by decide)

/-- C4 counterexample: in the atlas-producing pass with a fixed
two-by-two cell, a loaded four-by-four frame is composited at its
original size (pasted at negative offsets, its record overflowing the
cell), refuting the claim that this pass downscales oversized frames. -/
theorem createSpriteSheet_no_downscale_cex :
    (createSpriteSheet [(("f.png"), ⟨4, 4, 9⟩)] [(("p"), [("f.png")])]
        ("s.png") 3 true (some 2) (some 2) none).2.1 =
      some { w := 6, h := 2,
             pastes := [{ img := { w := 4, h := 4, tag := 9 },
                          px := -1, py := -1 }] } ∧
    fsLookup [(("f.png"), ⟨4, 4, 9⟩)] ("f.png") = some { w := 4, h := 4, tag := 9 } ∧
    ((createSpriteSheet [(("f.png"), ⟨4, 4, 9⟩)] [(("p"), [("f.png")])]
        ("s.png") 3 true (some 2) (some 2) none).2.2.map
      (fun a => (a.meta.cellW, a.meta.cellH))) = some (2, 2) := by
  refine ⟨rfl, rfl, rfl⟩

/-- C4 (amended): downscaling lives in the legacy grouped builder: every
buffer it pastes is the fit-to-cell resize of the loaded (optionally
autotrimmed) buffer; the resize clamps to the cell, never enlarges either
dimension, and leaves a buffer that already fits unchanged. -/
theorem grouped_builder_downscales_never_upsizes
    (fs : FS) (trim : Image → Image) (framesByPose : List (String × List String))
    (frameSize : Option (Nat × Nat)) (padding : Nat) (autotrim : Bool)
    (sh : GroupedSheet)
    (h : buildSpritesheetGrouped fs trim framesByPose frameSize padding autotrim =
      Except.ok sh) :
    ∀ p ∈ sh.pastes,
      p.img = resizeToCell p.srcIm sh.cellW sh.cellH ∧
      p.img.w ≤ sh.cellW ∧ p.img.h ≤ sh.cellH ∧
      p.img.w ≤ p.srcIm.w ∧ p.img.h ≤ p.srcIm.h ∧
      ((p.srcIm.w ≤ sh.cellW ∧ p.srcIm.h ≤ sh.cellH) → p.img = p.srcIm) := by
  intro p hp
  have hres := buildSpritesheetGrouped_pastes fs trim framesByPose frameSize
    padding autotrim sh h p hp
  refine ⟨hres, ?_, ?_, ?_, ?_, ?_⟩
  · rw [hres]
    exact (resizeToCell_le_cell _ _ _).1
  · rw [hres]
    exact (resizeToCell_le_cell _ _ _).2
  · rw [hres]
    exact (resizeToCell_le_src _ _ _).1
  · rw [hres]
    exact (resizeToCell_le_src _ _ _).2
  · intro hfits
    rw [hres]
    exact resizeToCell_id_of_fits _ _ _ hfits.1 hfits.2

/-- C4 witness: a concrete grouped build whose second frame (five by
three) exceeds the inferred two-by-two cell and is pasted downscaled to
two by two. -/
theorem grouped_builder_downscales_witness :
    { srcIm := { w := 5, h := 3, tag := 1 }, img := { w := 2, h := 2, tag := 1 },
      px := 2, py := 0 : GroupedPaste }.img.w ≤ 2 ∧
    { srcIm := { w := 5, h := 3, tag := 1 }, img := { w := 2, h := 2, tag := 1 },
      px := 2, py := 0 : GroupedPaste }.img.w ≤ 5 := by
  have h := grouped_builder_downscales_never_upsizes
    [(("f1.png"), ⟨2, 2, 0⟩), (("f2.png"), ⟨5, 3, 1⟩)] id
    [(("p"), [("f1.png"), ("f2.png")])] none 0 true
    { cellW := 2, cellH := 2, w := 4, h := 2,
      pastes := [{ srcIm := { w := 2, h := 2, tag := 0 },
                   img := { w := 2, h := 2, tag := 0 }, px := 0, py := 0 },
                 { srcIm := { w := 5, h := 3, tag := 1 },
                   img := { w := 2, h := 2, tag := 1 }, px := 2, py := 0 }] }
    rfl
    { srcIm := { w := 5, h := 3, tag := 1 }, img := { w := 2, h := 2, tag := 1 },
      px := 2, py := 0 } (by decide)
  exact ⟨h.2.1, h.2.2.2.1⟩

/-- C5: the normalizer renumbers every pose in existing order with
sequential indices starting at the start index (the frame at position j
gets index start plus j, so indices are a contiguous run with no gaps or
duplicates); when the filename matches the prefix-underscore-digits-dot-
extension pattern only the digit run is rewritten and the directory kept;
the rename-plan keys are exactly the normalized current paths whose
computed path differs; and the walk scenario with start one and pad two
renames x_05/x_07 to x_01/x_02 with a two-entry plan. -/
theorem normalizer_renumbers_and_plans :
    (∀ (byPose : List (String × List String)) (start pad : Nat),
      (normalizeFrameNumbers byPose start pad).1 =
        byPose.map (fun e =>
          (e.1, e.2.mapIdx (fun j p => normalizePath p (start + j) pad)))) ∧
    (∀ (p : String) (idx pad : Nat) (pre ds suf : List Char),
      findUnd (fileNameC (pNormC p.data)) = some (pre, ds, suf) →
        fileNameC (pNormC p.data) = pre ++ ds ++ suf ∧
        (∃ pre0, pre = pre0 ++ ['_']) ∧
        ¬ ds = [] ∧ ds.all isDigitC ∧
        fileNameC ((normalizePath p idx pad).data) =
          pre ++ padNumC idx pad ++ suf ∧
        parentC ((normalizePath p idx pad).data) = parentC (pNormC p.data)) ∧
    (∀ (byPose : List (String × List String)) (start pad : Nat) (q : String),
      (dictFind (normalizeFrameNumbers byPose start pad).2 q).isSome = true ↔
        ∃ i, ∃ (hi : i < byPose.length), ∃ j,
          ∃ (hj : j < (byPose.get ⟨i, hi⟩).2.length),
          pNorm ((byPose.get ⟨i, hi⟩).2.get ⟨j, hj⟩) = q ∧
          ¬ normalizePath ((byPose.get ⟨i, hi⟩).2.get ⟨j, hj⟩) (start + j) pad =
            pNorm ((byPose.get ⟨i, hi⟩).2.get ⟨j, hj⟩)) ∧
    (∀ (byPose : List (String × List String)) (start pad : Nat) (q v : String),
      dictFind (normalizeFrameNumbers byPose start pad).2 q = some v →
        ∃ i, ∃ (hi : i < byPose.length), ∃ j,
          ∃ (hj : j < (byPose.get ⟨i, hi⟩).2.length),
          pNorm ((byPose.get ⟨i, hi⟩).2.get ⟨j, hj⟩) = q ∧
          v = normalizePath ((byPose.get ⟨i, hi⟩).2.get ⟨j, hj⟩) (start + j) pad ∧
          ¬ v = q) ∧
    normalizeFrameNumbers [(("walk"), [("x_05.png"), ("x_07.png")])] 1 2 =
      ([(("walk"), [("x_01.png"), ("x_02.png")])],
        [(("x_05.png"), ("x_01.png")), (("x_07.png"), ("x_02.png"))]) := by
  refine ⟨?_, ?_, ?_, ?_, by decide⟩
  · intro byPose start pad
    exact normalizeFrameNumbers_fst byPose start pad
  · intro p idx pad pre ds suf h
    obtain ⟨hnm, hpre0, hpt⟩ := findUnd_sound _ _ _ _ h
    obtain ⟨_, hds, hdig, _⟩ := parseTail_sound _ _ _ hpt
    obtain ⟨hfn, hpar⟩ := normalizePath_matched_parts p idx pad pre ds suf h
    exact ⟨hnm, hpre0, hds, hdig, hfn, hpar⟩
  · intro byPose start pad q
    unfold normalizeFrameNumbers
    rw [normalizeFrameNumbersGo_snd_keys start pad byPose [] q]
    simp [dictFind]
  · intro byPose start pad q v h
    unfold normalizeFrameNumbers at h
    rcases normalizeFrameNumbersGo_snd_values start pad byPose [] q v h with
      h1 | h2
    · exact absurd h1 (by simp [dictFind])
    · exact h2

/-- C5 witness: applying the matched-rewrite part at the scenario input
shows the new filename keeps prefix and extension and carries the padded
start index. -/
theorem normalizer_renumbers_and_plans_witness :
    fileNameC ((normalizePath ("x_05.png") 1 2).data) =
      ['x', '_'] ++ padNumC 1 2 ++ ['.', 'p', 'n', 'g'] :=
  (normalizer_renumbers_and_plans.2.1 ("x_05.png") 1 2
    ['x', '_'] ['0', '5'] ['.', 'p', 'n', 'g'] (by decide)).2.2.2.2.1

/-- C6 counterexample: for a frame whose extension is not alphanumeric,
the first normalization appends an index segment but the result still
fails the pattern, so a second run with the same start and pad appends
another segment and returns a nonempty rename plan. -/
theorem normalize_second_pass_not_empty_cex :
    (normalizeFrameNumbers
        (normalizeFrameNumbers [(("walk"), [("x.a-b")])] 1 2).1 1 2).2 =
      [(("x_01.a-b"), ("x_01_01.a-b"))] ∧
    ¬ (normalizeFrameNumbers
        (normalizeFrameNumbers [(("walk"), [("x.a-b")])] 1 2).1 1 2).2 = [] := by
  refine ⟨by decide, by decide⟩

/-- C6 (amended): normalization is idempotent for every pose set whose
filenames have an extension the pattern accepts (absent, or a dot
followed by alphanumerics): a second run with the same start index and
pad width returns an empty rename plan and leaves every path unchanged. -/
theorem normalize_idempotent_on_good_extensions
    (byPose : List (String × List String)) (start pad : Nat)
    (hgood : ∀ e ∈ byPose, ∀ p ∈ e.2, goodExt p) :
    (normalizeFrameNumbers (normalizeFrameNumbers byPose start pad).1 start pad).2 =
      [] ∧
    (normalizeFrameNumbers (normalizeFrameNumbers byPose start pad).1 start pad).1 =
      (normalizeFrameNumbers byPose start pad).1 := by
  unfold normalizeFrameNumbers
  rw [normalizeFrameNumbersGo_twice start pad byPose hgood [] []]
  exact ⟨rfl, rfl⟩

/-- C6 witness: idempotence at the walk scenario, whose png extensions
the pattern accepts. -/
theorem normalize_idempotent_witness :
    (normalizeFrameNumbers
        (normalizeFrameNumbers [(("walk"), [("x_05.png"), ("x_07.png")])] 1 2).1
        1 2).2 = [] :=
  (normalize_idempotent_on_good_extensions
    [(("walk"), [("x_05.png"), ("x_07.png")])] 1 2 (by decide)).1

/-- C1 counterexample: with one requested column and a pose of two
loadable one-by-one frames, the second atlas record destination rect lies
outside the one-pixel-wide sheet canvas. -/
theorem atlas_rect_out_of_bounds_cex :
    atlasBad (createSpriteSheet [(("a.png"), ⟨1, 1, 0⟩), (("b.png"), ⟨1, 1, 1⟩)]
      [(("p"), [("a.png"), ("b.png")])] ("s.png") 1 false none none none) := by
  decide

/-- C2 counterexample: a pose whose single frame path is unloadable still
counts as a nonempty pose, but contributes no row: with one loadable pose
and one unloadable pose the sheet is one cell high, not two, refuting the
height claim read over nonempty poses. -/
theorem sheet_height_skips_unloadable_cex :
    ((createSpriteSheet [(("a.png"), ⟨1, 1, 0⟩)]
        [(("p"), [("a.png")]), (("q"), [("missing.png")])]
        ("s.png") 2 false none none none).2.1.map (fun s => s.h)) = some 1 ∧
    ([(("p"), [("a.png")]), (("q"), [("missing.png")])].filter
      (fun e => ¬ e.2 = [])).length = 2 ∧
    ((createSpriteSheet [(("a.png"), ⟨1, 1, 0⟩)]
        [(("p"), [("a.png")]), (("q"), [("missing.png")])]
        ("s.png") 2 false none none none).2.2.map
      (fun a => a.meta.cellH)) = some 1 := by
  refine ⟨rfl, by decide, rfl⟩

/-- C1 (amended): whenever every pose has at most max(requested columns,
one) loadable frames, every emitted atlas record destination rect lies
fully within the sheet canvas bounds; and regardless of that hypothesis,
no two records destination rects ever overlap. -/
theorem atlas_rects_in_bounds_and_disjoint (fs : FS)
    (framesByPose : List (String × List String)) (outSheetPath : String)
    (sheetCols : Int) (fixedCell : Bool) (cellW cellH : Option Nat)
    (atlasBasename : Option String) (a : Atlas)
    (hcols : ∀ e ∈ framesByPose, (loadImages fs e.2).length ≤ pyCols sheetCols)
    (ha : (createSpriteSheet fs framesByPose outSheetPath sheetCols fixedCell
      cellW cellH atlasBasename).2.2 = some a) :
    (∀ fr ∈ a.frames, rectInBounds a.meta fr) ∧
      a.frames.Pairwise rectDisjoint := by
  unfold createSpriteSheet at ha
  split at ha
  · cases ha
  · split at ha
    · cases ha
    · have haeq := (Option.some.inj (by exact ha)).symm
      subst haeq
      constructor
      · intro fr hfr
        have hb := atlasFrames_inBounds fixedCell
          (resolveCell (sheetRows fs framesByPose) fixedCell cellW cellH).1
          (resolveCell (sheetRows fs framesByPose) fixedCell cellW cellH).2
          (sheetPoses framesByPose) atlasBasename (sheetRows fs framesByPose)
          (pyCols sheetCols) ?_ fr hfr
        · exact hb
        · intro r hr
          rcases mem_sheetRows fs framesByPose r hr with ⟨e, he, _, hre, _⟩
          rw [hre]
          exact hcols e he
      · exact atlasFrames_pairwise _ _ _ _ _ _

/-- C1 witness: the amended theorem at two loadable frames and two
requested columns puts both records in bounds and pairwise disjoint. -/
theorem atlas_rects_in_bounds_and_disjoint_witness :
    (∀ fr ∈ c1WitnessAtlas.frames, rectInBounds c1WitnessAtlas.meta fr) ∧
      c1WitnessAtlas.frames.Pairwise rectDisjoint :=
  atlas_rects_in_bounds_and_disjoint
    [(("a.png"), ⟨1, 1, 0⟩), (("b.png"), ⟨1, 1, 1⟩)]
    [(("p"), [("a.png"), ("b.png")])] ("s.png") 2 false none none none
    c1WitnessAtlas (by decide) rfl

/-- C2 (amended): whenever some pose has a loadable frame, the sheet is
produced with width exactly max(requested columns, one) times the cell
width and height exactly (number of poses with a nonempty list and at
least one loadable frame) times the cell height, and the atlas meta
mirrors those dimensions. -/
theorem sheet_dims (fs : FS) (framesByPose : List (String × List String))
    (outSheetPath : String) (sheetCols : Int) (fixedCell : Bool)
    (cellW cellH : Option Nat) (atlasBasename : Option String)
    (h : ∃ e ∈ framesByPose, ¬ loadImages fs e.2 = []) :
    ∃ sh a, createSpriteSheet fs framesByPose outSheetPath sheetCols fixedCell
        cellW cellH atlasBasename = (outSheetPath, some sh, some a) ∧
      sh.w = (max sheetCols 1).toNat * a.meta.cellW ∧
      sh.h = loadableRowCount fs framesByPose * a.meta.cellH ∧
      a.meta.columns = (max sheetCols 1).toNat ∧
      a.meta.sizeW = sh.w ∧ a.meta.sizeH = sh.h := by
  rcases h with ⟨e, he, hload⟩
  have hne : ¬ e.2 = [] := by
    intro hnil
    rw [hnil] at hload
    exact hload rfl
  have hentries : ¬ framesByPose.filter (fun e2 => ¬ e2.2 = []) = [] := by
    intro hnil
    have : e ∈ framesByPose.filter (fun e2 => ¬ e2.2 = []) :=
      List.mem_filter.mpr ⟨he, by simpa using hne⟩
    rw [hnil] at this
    cases this
  have hrows : ¬ sheetRows fs framesByPose = [] := by
    intro hnil
    have : (loadImages fs e.2, e.2) ∈ sheetRows fs framesByPose := by
      unfold sheetRows
      refine List.mem_filterMap.mpr ⟨e, List.mem_filter.mpr ⟨he, by simpa using hne⟩, ?_⟩
      rw [if_neg hload]
    rw [hnil] at this
    cases this
  unfold createSpriteSheet
  rw [if_neg hentries, if_neg hrows]
  refine ⟨_, _, rfl, ?_, ?_, ?_, rfl, rfl⟩
  · rw [pyCols_eq_max]
  · rw [sheetRows_length]
  · exact pyCols_eq_max sheetCols

/-- C2 witness: the amended theorem at one loadable pose and one
unloadable pose. -/
theorem sheet_dims_witness :
    ∃ sh a, createSpriteSheet [(("a.png"), ⟨1, 1, 0⟩)]
        [(("p"), [("a.png")]), (("q"), [("missing.png")])]
        ("s.png") 2 false none none none = (("s.png"), some sh, some a) ∧
      sh.w = (max (2 : Int) 1).toNat * a.meta.cellW ∧
      sh.h = loadableRowCount [(("a.png"), ⟨1, 1, 0⟩)]
        [(("p"), [("a.png")]), (("q"), [("missing.png")])] * a.meta.cellH ∧
      a.meta.columns = (max (2 : Int) 1).toNat ∧
      a.meta.sizeW = sh.w ∧ a.meta.sizeH = sh.h :=
  sheet_dims [(("a.png"), ⟨1, 1, 0⟩)]
    [(("p"), [("a.png")]), (("q"), [("missing.png")])]
    ("s.png") 2 false none none none (by decide)

/-- C7: apply_renames never loses a file. An entry whose source path is
missing is skipped with the filesystem unchanged; an entry whose rename
fails is skipped with the old path intact; a successful rename stores the
image at the new path and removes the old one when the paths differ; the
loop always continues with the remaining entries whatever this entry did;
and a path that is no entry source survives the whole plan. -/
theorem applyRenames_never_loses (fails : Nat → Bool) (i : Nat) (fs : FS)
    (e : String × String) (rest : List (String × String)) :
    (fsLookup fs e.1 = none → applyRenameOne fs e.1 e.2 (fails i) = fs) ∧
    (fails i = true → applyRenameOne fs e.1 e.2 (fails i) = fs) ∧
    (∀ img, fsLookup fs e.1 = some img → fails i = false →
      fsLookup (applyRenameOne fs e.1 e.2 (fails i)) e.2 = some img ∧
      (¬ e.1 = e.2 → fsLookup (applyRenameOne fs e.1 e.2 (fails i)) e.1 = none)) ∧
    applyRenamesGo fails i (e :: rest) fs =
      applyRenamesGo fails (i + 1) rest (applyRenameOne fs e.1 e.2 (fails i)) ∧
    (∀ p, (∀ e2 ∈ e :: rest, ¬ e2.1 = p) → (fsLookup fs p).isSome = true →
      (fsLookup (applyRenamesGo fails i (e :: rest) fs) p).isSome = true) := by
  refine ⟨?_, ?_, ?_, rfl, ?_⟩
  · intro hnone
    unfold applyRenameOne
    rw [hnone]
  · intro hf
    unfold applyRenameOne
    cases hl : fsLookup fs e.1 with
    | none => rfl
    | some img =>
      dsimp only
      rw [if_pos hf]
  · intro img hl hf
    have hfn : ¬ fails i = true := by
      rw [hf]
      exact Bool.false_ne_true
    unfold applyRenameOne
    rw [hl]
    dsimp only
    rw [if_neg hfn]
    constructor
    · rw [fsLookup_fsWrite, if_pos rfl]
    · intro hne
      rw [fsLookup_fsWrite, if_neg hne, fsLookup_fsErase_self]
  · intro p hnot hsome
    exact applyRenames_untouched (e :: rest) fails i fs p hnot hsome

/-- C7 witness: one successful rename of a.png to b.png in a two-file
filesystem moves the image and leaves c.png in place. -/
theorem applyRenames_never_loses_witness :
    fsLookup (applyRenameOne [(("a.png"), ⟨1, 1, 0⟩), (("c.png"), ⟨2, 2, 0⟩)]
        ("a.png") ("b.png") false) ("b.png") = some ⟨1, 1, 0⟩ ∧
    fsLookup (applyRenameOne [(("a.png"), ⟨1, 1, 0⟩), (("c.png"), ⟨2, 2, 0⟩)]
        ("a.png") ("b.png") false) ("a.png") = none ∧
    (fsLookup (applyRenamesGo (fun _ => false) 0 [(("a.png"), ("b.png"))]
        [(("a.png"), ⟨1, 1, 0⟩), (("c.png"), ⟨2, 2, 0⟩)]) ("c.png")).isSome = true := by
  have h := applyRenames_never_loses (fun _ => false) 0
    [(("a.png"), ⟨1, 1, 0⟩), (("c.png"), ⟨2, 2, 0⟩)] (("a.png"), ("b.png")) []
  have h3 := h.2.2.1 ⟨1, 1, 0⟩ rfl rfl
  exact ⟨h3.1, h3.2 (by decide), h.2.2.2.2 ("c.png") (by decide) rfl⟩

/- ================================================================
   Lemmas about the pipeline fan-out, materialization and renumbering
   ================================================================ -/

theorem fanOutCount_pos (fr : Option Int) : 1 ≤ fanOutCount fr := by
  unfold fanOutCount
  cases fr with
  | none => decide
  | some k =>
    show 1 ≤ if k > 0 then k.toNat else 4
    by_cases hk : k > 0
    · rw [if_pos hk]
      omega
    · rw [if_neg hk]
      decide

theorem fanOutPaths_length (o b nm : String) (n : Nat) :
    (fanOutPaths o b nm n).length = n := by
  unfold fanOutPaths
  simp

theorem fanOutPaths_ne_nil (o b nm : String) (n : Nat) (h : 1 ≤ n) :
    ¬ fanOutPaths o b nm n = [] := by
  intro hc
  have h2 := congrArg List.length hc
  rw [fanOutPaths_length] at h2
  simp only [List.length_nil] at h2
  omega

theorem fanOutPaths_get (o b nm : String) (n j : Nat)
    (hj : j < (fanOutPaths o b nm n).length) :
    (fanOutPaths o b nm n).get ⟨j, hj⟩ =
      o ++ "/" ++ b ++ "_" ++ nm ++ "_" ++ padS (j + 1) 2 ++ ".png" := by
  unfold fanOutPaths at hj ⊢
  simp

theorem fanOutPath_data (o b nm : String) (j : Nat) :
    (o ++ "/" ++ b ++ "_" ++ nm ++ "_" ++ padS (j + 1) 2 ++ ".png").data =
      o.data ++ '/' :: ((b.data ++ '_' :: nm.data) ++ '_' ::
        (padNumC (j + 1) 2 ++ '.' :: ['p', 'n', 'g'])) := by
  simp only [String.data_append]
  show o.data ++ ['/'] ++ b.data ++ ['_'] ++ nm.data ++ ['_'] ++
      padNumC (j + 1) 2 ++ ['.', 'p', 'n', 'g'] = _
  simp

theorem fanOutPath_pNorm (o b nm : String) (j : Nat)
    (ho : ¬ '\\' ∈ o.data) (hb : ¬ '\\' ∈ b.data) (hn : ¬ '\\' ∈ nm.data) :
    pNorm (o ++ "/" ++ b ++ "_" ++ nm ++ "_" ++ padS (j + 1) 2 ++ ".png") =
      o ++ "/" ++ b ++ "_" ++ nm ++ "_" ++ padS (j + 1) 2 ++ ".png" := by
  apply string_eq_of_data
  refine pNormC_fixed _ ?_
  rw [fanOutPath_data]
  intro hmem
  rcases List.mem_append.mp hmem with h1 | h2
  · exact ho h1
  · rcases List.mem_cons.mp h2 with he | h3
    · cases he
    · rcases List.mem_append.mp h3 with h4 | h5
      · rcases List.mem_append.mp h4 with h6 | h7
        · exact hb h6
        · rcases List.mem_cons.mp h7 with he2 | h8
          · cases he2
          · exact hn h8
      · rcases List.mem_cons.mp h5 with he3 | h9
        · cases he3
        · rcases List.mem_append.mp h9 with ha | hb2
          · exact not_mem_of_all_digits _ _ (padNumC_all _ _) (by decide) ha
          · exact absurd hb2 (by decide)

theorem fanOutPath_normalize (o b nm : String) (j : Nat)
    (ho : wfOutDir o) (hb : sepFree b) (hn : sepFree nm) :
    normalizePath (o ++ "/" ++ b ++ "_" ++ nm ++ "_" ++ padS (j + 1) 2 ++ ".png")
        (j + 1) 2 =
      o ++ "/" ++ b ++ "_" ++ nm ++ "_" ++ padS (j + 1) 2 ++ ".png" := by
  obtain ⟨ho1, ho2, ho3, ho4⟩ := ho
  obtain ⟨hb1, hb2⟩ := hb
  obtain ⟨hn1, hn2⟩ := hn
  refine normalizePath_canonical _ o.data (b.data ++ '_' :: nm.data) (j + 1) 2
    (fanOutPath_data o b nm j) ?_ ?_ ?_ ho4 ?_ ?_
  · intro hc
    exact ho1 (string_eq_of_data _ _ hc)
  · intro hc
    exact ho2 (string_eq_of_data _ _ hc)
  · intro hc
    exact ho3 (string_eq_of_data _ _ hc)
  · intro hmem
    rcases List.mem_append.mp hmem with h1 | h2
    · exact hb1 h1
    · rcases List.mem_cons.mp h2 with he | h3
      · cases he
      · exact hn1 h3
  · intro hmem
    rcases List.mem_append.mp hmem with h1 | h2
    · exact hb2 h1
    · rcases List.mem_cons.mp h2 with he | h3
      · cases he
      · exact hn2 h3

theorem normalizePoseGo_id (s pad : Nat) (paths : List String) :
    ∀ (k : Nat),
      (∀ j (hj : j < paths.length),
        normalizePath (paths.get ⟨j, hj⟩) (s + (k + j)) pad = paths.get ⟨j, hj⟩ ∧
        pNorm (paths.get ⟨j, hj⟩) = paths.get ⟨j, hj⟩) →
      ∀ rmap, normalizePoseGo s pad k paths rmap = (paths, rmap) := by
  induction paths with
  | nil =>
    intro k h rmap
    rfl
  | cons p rest ih =>
    intro k h rmap
    have hlt : 0 < (p :: rest).length := by simp
    have h1 : normalizePath p (s + k) pad = p := (h 0 hlt).1
    have h2 : pNorm p = p := (h 0 hlt).2
    have hrest : normalizePoseGo s pad (k + 1) rest rmap = (rest, rmap) := by
      refine ih (k + 1) ?_ rmap
      intro j hj
      have hj2 : j + 1 < (p :: rest).length := by
        simp only [List.length_cons]
        omega
      have h3 := h (j + 1) hj2
      have hget : (p :: rest).get ⟨j + 1, hj2⟩ = rest.get ⟨j, hj⟩ := rfl
      rw [hget] at h3
      have hidx : s + (k + (j + 1)) = s + ((k + 1) + j) := by omega
      rw [hidx] at h3
      exact h3
    simp only [normalizePoseGo]
    rw [h2, h1, if_neg (fun hc => hc rfl), hrest]

theorem normalizePose_id (s pad : Nat) (paths : List String)
    (h : ∀ j (hj : j < paths.length),
      normalizePath (paths.get ⟨j, hj⟩) (s + j) pad = paths.get ⟨j, hj⟩ ∧
      pNorm (paths.get ⟨j, hj⟩) = paths.get ⟨j, hj⟩)
    (rmap : List (String × String)) :
    normalizePose paths s pad rmap = (paths, rmap) := by
  unfold normalizePose
  refine normalizePoseGo_id s pad paths 0 ?_ rmap
  intro j hj
  rw [Nat.zero_add]
  exact h j hj

theorem fanOutPaths_normalizePose_id (o b nm : String) (n : Nat)
    (ho : wfOutDir o) (hb : sepFree b) (hn : sepFree nm)
    (rmap : List (String × String)) :
    normalizePose (fanOutPaths o b nm n) 1 2 rmap = (fanOutPaths o b nm n, rmap) := by
  refine normalizePose_id 1 2 _ ?_ rmap
  intro j hj
  rw [fanOutPaths_get o b nm n j hj]
  constructor
  · rw [show 1 + j = j + 1 by omega]
    exact fanOutPath_normalize o b nm j ho hb hn
  · exact fanOutPath_pNorm o b nm j ho.2.2.2 hb.2 hn.2

theorem normalizeFrameNumbersGo_id (s pad : Nat) :
    ∀ (byPose : List (String × List String)),
      (∀ e ∈ byPose, ∀ rmap, normalizePose e.2 s pad rmap = (e.2, rmap)) →
      ∀ rmap, normalizeFrameNumbersGo s pad byPose rmap = (byPose, rmap) := by
  intro byPose
  induction byPose with
  | nil =>
    intro h rmap
    rfl
  | cons e rest ih =>
    intro h rmap
    simp only [normalizeFrameNumbersGo]
    rw [h e (List.mem_cons_self _ _) rmap,
      ih (fun e2 he2 => h e2 (List.mem_cons_of_mem _ he2)) rmap]

theorem effectivePoses_ne_nil (req : PosesPipelineRequest) :
    ¬ effectivePoses req = [] := by
  unfold effectivePoses
  by_cases h : req.poses = []
  · rw [if_pos h]
    simp
  · rw [if_neg h]
    exact h

theorem mem_dictInsert {α : Type} (d : List (String × α)) (k : String) (v : α)
    (e : String × α) (he : e ∈ dictInsert d k v) : e ∈ d ∨ e = (k, v) := by
  unfold dictInsert at he
  by_cases hany : d.any (fun x => x.1 = k) = true
  · rw [if_pos hany] at he
    rcases List.mem_map.mp he with ⟨x, hx, hxe⟩
    by_cases hxk : x.1 = k
    · rw [if_pos hxk] at hxe
      exact Or.inr hxe.symm
    · rw [if_neg hxk] at hxe
      exact Or.inl (hxe ▸ hx)
  · rw [if_neg hany] at he
    rcases List.mem_append.mp he with h1 | h2
    · exact Or.inl h1
    · rcases List.mem_cons.mp h2 with he2 | hf
      · exact Or.inr he2
      · cases hf

theorem dictInsert_ne_nil {α : Type} (d : List (String × α)) (k : String) (v : α) :
    ¬ dictInsert d k v = [] := by
  unfold dictInsert
  by_cases hany : d.any (fun x => x.1 = k) = true
  · rw [if_pos hany]
    intro hc
    rw [List.map_eq_nil_iff] at hc
    subst hc
    simp at hany
  · rw [if_neg hany]
    intro hc
    simp at hc

theorem foldl_fsWrite_lookup (img : Image) :
    ∀ (ps : List String) (fs : FS) (p : String),
      (p ∈ ps ∨ fsLookup fs p = some img) →
      fsLookup (ps.foldl (fun f q => fsWrite f q img) fs) p = some img := by
  intro ps
  induction ps with
  | nil =>
    intro fs p h
    rcases h with h1 | h2
    · cases h1
    · exact h2
  | cons q rest ih =>
    intro fs p h
    simp only [List.foldl_cons]
    refine ih _ p ?_
    by_cases hpq : p = q
    · right
      rw [fsLookup_fsWrite, if_pos hpq]
    · rcases h with h1 | h2
      · rcases List.mem_cons.mp h1 with he | hm
        · exact absurd he hpq
        · exact Or.inl hm
      · right
        rw [fsLookup_fsWrite, if_neg hpq]
        exact h2

theorem materialize_eq (fs : FS) (img : Image) (o b : String)
    (poses : List PoseSpec) :
    materialize fs img o b poses = poses.foldl (matStep img o b) (fs, [], []) := rfl

theorem matFold_inv (img : Image) (o b : String) :
    ∀ (poses : List PoseSpec) (acc : FS × List (String × List String) × List String),
      (∀ sp ∈ poses, sepFree sp.name) →
      (∀ e ∈ acc.2.1,
        (∃ nm n, e = (nm, fanOutPaths o b nm n) ∧ 1 ≤ n ∧ sepFree nm) ∧
        (∀ p ∈ e.2, fsLookup acc.1 p = some img)) →
      ∀ e ∈ (poses.foldl (matStep img o b) acc).2.1,
        (∃ nm n, e = (nm, fanOutPaths o b nm n) ∧ 1 ≤ n ∧ sepFree nm) ∧
        (∀ p ∈ e.2, fsLookup (poses.foldl (matStep img o b) acc).1 p = some img) := by
  intro poses
  induction poses with
  | nil =>
    intro acc hsep hacc e he
    exact hacc e he
  | cons sp rest ih =>
    intro acc hsep hacc
    simp only [List.foldl_cons]
    refine ih (matStep img o b acc sp)
      (fun s2 hs2 => hsep s2 (List.mem_cons_of_mem _ hs2)) ?_
    intro e he
    have hsp : sepFree sp.name := hsep sp (List.mem_cons_self _ _)
    rcases mem_dictInsert acc.2.1 sp.name
        (fanOutPaths o b sp.name (fanOutCount sp.frames)) e he with hold | hnew
    · obtain ⟨hshape, hlk⟩ := hacc e hold
      refine ⟨hshape, ?_⟩
      intro p hp
      exact foldl_fsWrite_lookup img _ acc.1 p (Or.inr (hlk p hp))
    · subst hnew
      refine ⟨⟨sp.name, fanOutCount sp.frames, rfl, fanOutCount_pos _, hsp⟩, ?_⟩
      intro p hp
      exact foldl_fsWrite_lookup img _ acc.1 p (Or.inl hp)

theorem matFold_ne_nil (img : Image) (o b : String) :
    ∀ (poses : List PoseSpec) (acc : FS × List (String × List String) × List String),
      (¬ poses = [] ∨ ¬ acc.2.1 = []) →
      ¬ (poses.foldl (matStep img o b) acc).2.1 = [] := by
  intro poses
  induction poses with
  | nil =>
    intro acc h
    rcases h with h1 | h2
    · exact absurd rfl h1
    · exact h2
  | cons sp rest ih =>
    intro acc h
    simp only [List.foldl_cons]
    exact ih _ (Or.inr (dictInsert_ne_nil _ _ _))

theorem loadImages_const (fs : FS) (img : Image) :
    ∀ (l : List String), (∀ p ∈ l, fsLookup fs p = some img) →
      loadImages fs l = l.map (fun _ => img) := by
  intro l
  induction l with
  | nil =>
    intro h
    rfl
  | cons p rest ih =>
    intro h
    unfold loadImages at ih ⊢
    simp only [List.filterMap_cons, h p (List.mem_cons_self _ _), List.map_cons]
    exact congrArg (List.cons img) (ih fun q hq => h q (List.mem_cons_of_mem _ hq))

theorem sheetRows_cons_pos (fs : FS) (e0 : String × List String)
    (rest : List (String × List String))
    (he1 : ¬ e0.2 = []) (he2 : ¬ loadImages fs e0.2 = []) :
    sheetRows fs (e0 :: rest) = (loadImages fs e0.2, e0.2) :: sheetRows fs rest := by
  unfold sheetRows
  rw [List.filter_cons, if_pos (decide_eq_true he1), List.filterMap_cons,
    if_neg he2]

theorem createSpriteSheet_sheet (fs : FS) (framesByPose : List (String × List String))
    (outSheetPath : String) (sheetCols : Int) (fixedCell : Bool)
    (cellW cellH : Option Nat) (ab : Option String)
    (hg1 : ¬ framesByPose.filter (fun e => ¬ e.2 = []) = [])
    (hg2 : ¬ sheetRows fs framesByPose = []) :
    ∃ sh, (createSpriteSheet fs framesByPose outSheetPath sheetCols fixedCell
        cellW cellH ab).2.1 = some sh ∧
      sh.pastes = sheetPastes fixedCell
        (resolveCell (sheetRows fs framesByPose) fixedCell cellW cellH).1
        (resolveCell (sheetRows fs framesByPose) fixedCell cellW cellH).2
        (sheetRows fs framesByPose) := by
  unfold createSpriteSheet
  rw [if_neg hg1, if_neg hg2]
  exact ⟨_, rfl, rfl⟩

theorem mem_sheetPastes (fixedCell : Bool) (cw ch : Nat)
    (rows : List (List Image × List String)) (pt : Paste)
    (h : pt ∈ sheetPastes fixedCell cw ch rows) :
    ∃ row ∈ rows, pt.img ∈ row.1 := by
  unfold sheetPastes at h
  rcases List.mem_flatMap.mp h with ⟨rr, hrr, hpt⟩
  rcases List.mem_map.mp hpt with ⟨cc, hcc, hmk⟩
  have hrow : rr.2 ∈ rows := (mem_enumFrom_facts rows 0 rr hrr).2.2
  refine ⟨rr.2, hrow, ?_⟩
  have himg : pt.img = cc.2 := by
    rw [← hmk]
    unfold mkPaste
    cases fixedCell <;> rfl
  rw [himg]
  exact (mem_enumFrom_facts rr.2.1 0 cc hcc).2.2

theorem sheetPastes_ne_nil (fixedCell : Bool) (cw ch : Nat)
    (row0 : List Image × List String) (rest : List (List Image × List String))
    (h : ¬ row0.1 = []) :
    ¬ sheetPastes fixedCell cw ch (row0 :: rest) = [] := by
  unfold sheetPastes
  intro hc
  rw [List.flatMap_eq_nil_iff] at hc
  have h0 := hc (0, row0) (by rw [List.enum_cons]; exact List.mem_cons_self _ _)
  rw [List.map_eq_nil_iff] at h0
  have hlen := congrArg List.length h0
  simp only [List.enum_length, List.length_nil] at hlen
  exact h (List.length_eq_zero.mp hlen)

/-- C9: when the AI edit collaborator raises, the orchestrator soft-fails:
the pipeline still returns ok, the edit info records the error model, the
original source path and the failure reason, every materialized frame on
disk holds the original source image, and the sheet and the gif are still
produced, composited entirely from that original source image. -/
theorem pipeline_edit_softfail (env : PipeEnv) (req : PosesPipelineRequest)
    (msg : String) (srcImg : Image)
    (hnano : req.use_nano = true)
    (hgifsel : req.pose_for_gif = none)
    (herr : ∀ fs s ins m od wm, env.applyEdit fs s ins m od wm = Except.error msg)
    (hsrc : fsLookup env.fs (srcPath req) = some srcImg)
    (hodir : wfOutDir (effOutDir req))
    (hbase : sepFree (effBase req))
    (hposes : ∀ spec ∈ effectivePoses req, sepFree spec.name)
    (hframes : ∀ spec ∈ effectivePoses req,
      spec.frames.all (fun k => decide (1 ≤ k)) = true) :
    ∃ payload, posesPipeline env req = Except.ok payload ∧
      payload.edit_info =
        { used_model := ("error"), edited_path := srcPath req, reason := some msg } ∧
      ¬ payload.frames = [] ∧
      (∀ p ∈ payload.frames, fsLookup payload.fsFinal p = some srcImg) ∧
      (∃ sh, payload.sheet = some sh ∧ ¬ sh.pastes = [] ∧
        ∀ pt ∈ sh.pastes, pt.img = srcImg) ∧
      (∃ g, payload.gif = some g ∧ ¬ g.2 = [] ∧ ∀ im ∈ g.2, im = srcImg) := by
  have hany : (effectivePoses req).any
      (fun s => match s.frames with | some k => k < 1 | none => false) = false := by
    rw [List.any_eq_false]
    intro s hs
    have hall := hframes s hs
    cases hfr : s.frames with
    | none => simp
    | some k =>
      rw [hfr] at hall
      intro hc
      have hk := of_decide_eq_true hall
      have hk2 := of_decide_eq_true hc
      omega
  have hisrc : (fsLookup env.fs (srcPath req)).isNone = false := by
    rw [hsrc]
    rfl
  simp only [posesPipeline, hany, Bool.false_eq_true, if_false, hisrc, hnano,
    Bool.true_or, if_true]
  rw [herr env.fs (srcPath req) (effInstruction req) req.modelName (effOutDir req)
    req.watermark_stub]
  simp only []
  rw [hsrc]
  simp only []
  have hinv : ∀ e ∈ (materialize env.fs srcImg (effOutDir req) (effBase req)
      (effectivePoses req)).2.1,
      (∃ nm n, e = (nm, fanOutPaths (effOutDir req) (effBase req) nm n) ∧
        1 ≤ n ∧ sepFree nm) ∧
      (∀ p ∈ e.2, fsLookup (materialize env.fs srcImg (effOutDir req) (effBase req)
        (effectivePoses req)).1 p = some srcImg) := by
    rw [materialize_eq]
    exact matFold_inv srcImg (effOutDir req) (effBase req) (effectivePoses req)
      (env.fs, [], []) hposes (fun e he => absurd he (List.not_mem_nil e))
  have hm_ne : ¬ (materialize env.fs srcImg (effOutDir req) (effBase req)
      (effectivePoses req)).2.1 = [] := by
    rw [materialize_eq]
    exact matFold_ne_nil srcImg _ _ _ _ (Or.inl (effectivePoses_ne_nil req))
  have hfix : normalizeFrameNumbers (materialize env.fs srcImg (effOutDir req)
      (effBase req) (effectivePoses req)).2.1 1 2 =
      ((materialize env.fs srcImg (effOutDir req) (effBase req)
        (effectivePoses req)).2.1, []) := by
    unfold normalizeFrameNumbers
    refine normalizeFrameNumbersGo_id 1 2 _ ?_ []
    intro e he rmap
    obtain ⟨⟨nm, n, he2, hn, hsep⟩, _⟩ := hinv e he
    rw [he2]
    exact fanOutPaths_normalizePose_id (effOutDir req) (effBase req) nm n hodir
      hbase hsep rmap
  simp only [hfix, applyRenames, applyRenamesGo, ite_self]
  simp only [buildSheetStage]
  generalize hM : materialize env.fs srcImg (effOutDir req) (effBase req)
    (effectivePoses req) = M
  rw [hM] at hinv hm_ne
  obtain ⟨e0, rest0, hmap⟩ := List.exists_cons_of_ne_nil hm_ne
  have he0mem : e0 ∈ M.2.1 := by
    rw [hmap]
    exact List.mem_cons_self _ _
  obtain ⟨⟨nm0, n0, he0eq, hn0, hsep0⟩, hlk0⟩ := hinv e0 he0mem
  have he0ne : ¬ e0.2 = [] := by
    rw [he0eq]
    exact fanOutPaths_ne_nil _ _ _ _ hn0
  have hload0 : loadImages M.1 e0.2 = e0.2.map (fun _ => srcImg) :=
    loadImages_const M.1 srcImg e0.2 hlk0
  have hload0ne : ¬ loadImages M.1 e0.2 = [] := by
    rw [hload0, List.map_eq_nil_iff]
    exact he0ne
  refine ⟨_, rfl, ?_, ?_, ?_, ?_, ?_⟩
  · rfl
  · intro hc
    rw [List.flatMap_eq_nil_iff] at hc
    exact he0ne (hc e0 he0mem)
  · intro p hp
    rcases List.mem_flatMap.mp hp with ⟨e, he, hpe⟩
    exact (hinv e he).2 p hpe
  · have hg1 : ¬ (M.2.1.filter (fun e => ¬ e.2 = []) = []) := by
      rw [List.filter_eq_self.mpr ?_]
      · exact hm_ne
      · intro e he
        obtain ⟨⟨nm, n, he2, hn, _⟩, _⟩ := hinv e he
        refine decide_eq_true ?_
        rw [he2]
        exact fanOutPaths_ne_nil _ _ _ _ hn
    have hg2 : ¬ sheetRows M.1 M.2.1 = [] := by
      rw [hmap, sheetRows_cons_pos _ _ _ he0ne hload0ne]
      exact List.cons_ne_nil _ _
    obtain ⟨sh, hsh, hpastes⟩ := createSpriteSheet_sheet M.1 M.2.1
      (effOutDir req ++ "/" ++ effBase req ++ "_sheet.png")
      (pyOrInt req.sheet_cols 3)
      (req.fixed_cell && truthy req.cell_w && truthy req.cell_h)
      (if (req.fixed_cell && truthy req.cell_w && truthy req.cell_h) = true
        then req.cell_w else none)
      (if (req.fixed_cell && truthy req.cell_w && truthy req.cell_h) = true
        then req.cell_h else none)
      (some (effBase req)) hg1 hg2
    refine ⟨sh, hsh, ?_, ?_⟩
    · rw [hpastes, hmap, sheetRows_cons_pos _ _ _ he0ne hload0ne]
      exact sheetPastes_ne_nil _ _ _ _ _ hload0ne
    · intro pt hpt
      rw [hpastes] at hpt
      rcases mem_sheetPastes _ _ _ _ pt hpt with ⟨row, hrow, himg⟩
      rcases mem_sheetRows _ _ row hrow with ⟨e, he, hne, hroweq, hlne⟩
      rw [hroweq] at himg
      have hl := loadImages_const M.1 srcImg e.2 ((hinv e he).2)
      rw [hl] at himg
      rcases List.mem_map.mp himg with ⟨q, hq, hqe⟩
      exact hqe.symm
  · have hfind : M.2.1.find? (fun e => ¬ e.2 = []) = some e0 := by
      rw [hmap]
      exact List.find?_cons_of_pos _ (decide_eq_true he0ne)
    have hpose : pyOrStr req.pose_for_gif
        (pyOrStr (Option.map (fun e => e.1)
          (M.2.1.find? (fun e => ¬ e.2 = [])))
          ((M.2.1.headD (("", []))).1)) = e0.1 := by
      rw [hgifsel, hfind, hmap]
      simp only [pyOrStr, Option.map_some', List.headD_cons, ite_self]
    have hdict : dictFind M.2.1 e0.1 = some e0.2 := by
      unfold dictFind
      rw [hmap]
      have hfc : List.find? (fun e => decide (e.1 = e0.1)) (e0 :: rest0) = some e0 :=
        List.find?_cons_of_pos _ (decide_eq_true rfl)
      rw [hfc]
      rfl
    rw [hpose, hdict]
    dsimp only
    rw [if_pos he0ne]
    simp only [createGif]
    rw [hload0, if_neg (by rw [List.map_eq_nil_iff]; exact he0ne)]
    refine ⟨_, rfl, ?_, ?_⟩
    · dsimp only
      rw [List.map_eq_nil_iff]
      exact he0ne
    · intro im him
      dsimp only at him
      rcases List.mem_map.mp him with ⟨q, hq, hqe⟩
      exact hqe.symm

/-- C9 witness: the soft-failure theorem at a concrete request whose edit
service always raises. -/
theorem pipeline_edit_softfail_witness :
    ∃ payload, posesPipeline c9Env c9Req = Except.ok payload ∧
      payload.edit_info =
        { used_model := ("error"), edited_path := srcPath c9Req,
          reason := some ("boom") } ∧
      ¬ payload.frames = [] ∧
      (∀ p ∈ payload.frames, fsLookup payload.fsFinal p = some ⟨3, 4, 7⟩) ∧
      (∃ sh, payload.sheet = some sh ∧ ¬ sh.pastes = [] ∧
        ∀ pt ∈ sh.pastes, pt.img = ⟨3, 4, 7⟩) ∧
      (∃ g, payload.gif = some g ∧ ¬ g.2 = [] ∧ ∀ im ∈ g.2, im = ⟨3, 4, 7⟩) :=
  pipeline_edit_softfail c9Env c9Req ("boom") ⟨3, 4, 7⟩ rfl rfl
    (fun _ _ _ _ _ _ => rfl) rfl (by decide) (by decide) (by decide) (by decide)

end Pixo
